import Mathlib

/-!
A verification development for the schematic layout core of `lcapy`
(`lcapy/schematic.py`).  The Python source is shallowly embedded:

* terminal / node / element names are `List Char` (`Ident`), so that the
  character-level transformations (`str.replace('.', '_')`,
  `str.split('_')`) can be modelled exactly;
* Python dicts that the algorithm reads back are modelled as association
  lists in which a *prepended* entry shadows older ones (dict overwrite)
  or, where the source only ever inserts fresh keys, as append-only
  association lists;
* the numeric type used for sizes and coordinates is `ℚ` (the idealised
  arithmetic of the source's floats; all sizes and coordinates the claims
  mention are small rationals);
* the unbounded memoized recursion of `longest_path` is modelled with an
  explicit fuel parameter: `none` models a computation that does not
  terminate (the source has no cycle detection), and every claim about a
  completed layout pass is stated for an arbitrary fuel.
-/

/-- Node / element identifiers, modelled as their character lists. -/
abbrev Ident := List Char

/-! Computable rational arithmetic.  The standard `ℚ` operations are
`@[irreducible]`, so the embedding uses these wrappers (each is proved
equal to the standard operation below); this keeps every definition
evaluable by `decide`. -/

def qadd (a b : ℚ) : ℚ := mkRat (a.num * b.den + b.num * a.den) (a.den * b.den)

def qsub (a b : ℚ) : ℚ := mkRat (a.num * b.den - b.num * a.den) (a.den * b.den)

def qmul (a b : ℚ) : ℚ := mkRat (a.num * b.num) (a.den * b.den)

/-- `0.5 * a`. -/
def qhalf (a : ℚ) : ℚ := mkRat a.num (a.den * 2)

/-- Python `max(a, b)` (ties keep the first argument). -/
def qmax (a b : ℚ) : ℚ := if Rat.blt a b then b else a

instance {ε α : Type} [DecidableEq ε] [DecidableEq α] : DecidableEq (Except ε α) := fun x y =>
  match x, y with
  | .error a, .error b =>
    if h : a = b then .isTrue (by rw [h]) else .isFalse (by simp [h])
  | .ok a, .ok b =>
    if h : a = b then .isTrue (by rw [h]) else .isFalse (by simp [h])
  | .error _, .ok _ => .isFalse (by simp)
  | .ok _, .error _ => .isFalse (by simp)

/-- Lookup in an association list (first match wins; new writes are
prepended, so this models Python dict lookup). -/
def alook {β : Type} (k : Ident) : List (Ident × β) → Option β
  | [] => none
  | (k', v) :: rest => if k' = k then some v else alook k rest

/-- Lookup in a `Nat`-keyed association list. -/
def nlook {β : Type} (k : Nat) : List (Nat × β) → Option β
  | [] => none
  | (k', v) :: rest => if k' = k then some v else nlook k rest

/-- Python `s.split(c)` for a single-character separator: keeps empty
pieces and always returns at least one piece. -/
def splitOnChar (c : Char) : List Char → List (List Char)
  | [] => [[]]
  | a :: rest =>
    if a = c then [] :: splitOnChar c rest
    else
      match splitOnChar c rest with
      | [] => [[a]]
      | p :: ps => (a :: p) :: ps

/-- Python `name.replace('.', '_')` (single-character pattern, hence a
character map). -/
def dotToUnderscore (s : Ident) : Ident :=
  s.map (fun c => if c = '.' then '_' else c)

/-! ## The layout layer

The element record as consumed by `Schematic._make_graphs`: its direction
string `opts['dir']` and its minimum size `float(opts['size'])` (already
converted to a number, as the layout pass does). -/

structure Elt where
  name : Ident
  n1 : Ident
  n2 : Ident
  dir : Ident
  size : ℚ
deriving DecidableEq, Repr

def rightI : Ident := "right".toList
def leftI : Ident := "left".toList
def upI : Ident := "up".toList
def downI : Ident := "down".toList

/-- State of the collective-node computation in `_make_graphs`:
`cnode_map` maps a terminal to its collective node number, `cnodes` maps a
collective node number to the list of its terminals, `cnode` is the
allocation counter. -/
structure CState where
  cnodeMap : List (Ident × Nat)
  cnodes : List (Nat × List Ident)
  cnode : Nat
deriving DecidableEq, Repr

/-- `cnodes[c].append(n)` : append `n` to the entry with key `c`. -/
def cnAppend : List (Nat × List Ident) → Nat → Ident → List (Nat × List Ident)
  | [], _, _ => []
  | (k, l) :: rest, c, n =>
    if k = c then (k, l ++ [n]) :: rest else (k, l) :: cnAppend rest c n

/-- One element of the first loop of `_make_graphs`: components in
orthogonal directions combine their two nodes into a collective node;
a disagreement of two existing collective nodes raises
`ValueError('Conflict for elt %s' % elt)` (the error carries the element). -/
def unifyStep (dirs : Ident × Ident) (st : CState) (e : Elt) : Except Ident CState :=
  if e.dir = dirs.1 ∨ e.dir = dirs.2 then .ok st
  else
    match alook e.n1 st.cnodeMap, alook e.n2 st.cnodeMap with
    | some c1, some c2 =>
      if c1 ≠ c2 then .error e.name
      else .ok { st with cnodeMap := (e.n2, c1) :: st.cnodeMap,
                         cnodes := cnAppend st.cnodes c1 e.n2 }
    | none, none =>
      .ok { cnodeMap := (e.n2, st.cnode + 1) :: (e.n1, st.cnode + 1) :: st.cnodeMap,
            cnodes := st.cnodes ++ [(st.cnode + 1, [e.n1, e.n2])],
            cnode := st.cnode + 1 }
    | none, some c2 =>
      .ok { st with cnodeMap := (e.n1, c2) :: st.cnodeMap,
                    cnodes := cnAppend st.cnodes c2 e.n1 }
    | some c1, none =>
      .ok { st with cnodeMap := (e.n2, c1) :: st.cnodeMap,
                    cnodes := cnAppend st.cnodes c1 e.n2 }

/-- The first loop of `_make_graphs` over all elements. -/
def unifyFold (dirs : Ident × Ident) (es : List Elt) : Except Ident CState :=
  es.foldlM (unifyStep dirs) ⟨[], [], 0⟩

/-- One element of the second loop of `_make_graphs`: terminals of
axis-aligned components that still lack a collective node get a fresh
singleton one (first `n1`, then `n2`). -/
def augmentStep (dirs : Ident × Ident) (st : CState) (e : Elt) : CState :=
  if e.dir = dirs.1 ∨ e.dir = dirs.2 then
    let st1 :=
      if (alook e.n1 st.cnodeMap).isNone then
        { cnodeMap := (e.n1, st.cnode + 1) :: st.cnodeMap,
          cnodes := st.cnodes ++ [(st.cnode + 1, [e.n1])],
          cnode := st.cnode + 1 }
      else st
    if (alook e.n2 st1.cnodeMap).isNone then
      { cnodeMap := (e.n2, st1.cnode + 1) :: st1.cnodeMap,
        cnodes := st1.cnodes ++ [(st1.cnode + 1, [e.n2])],
        cnode := st1.cnode + 1 }
    else st1
  else st

/-- The second loop of `_make_graphs` over all elements. -/
def augmentFold (dirs : Ident × Ident) (st : CState) (es : List Elt) : CState :=
  es.foldl (augmentStep dirs) st

/-- A graph in the representation of `longest_path`: `g v` is the list of
`(parent, size)` pairs stored at key `v` (`from_nodes[v]`). -/
abbrev Graph := Nat → List (Nat × ℚ)

/-- `graph[v].append(e)`. -/
def addEdge (g : Graph) (v : Nat) (e : Nat × ℚ) : Graph :=
  fun u => if u = v then g v ++ [e] else g u

/-- One element of the third loop of `_make_graphs`: an axis-aligned
component inserts a weighted edge into the forward graph and the mirrored
edge into the reverse graph. -/
def graphStep (dirs : Ident × Ident) (cmap : List (Ident × Nat))
    (gs : Graph × Graph) (e : Elt) : Graph × Graph :=
  if e.dir = dirs.1 ∨ e.dir = dirs.2 then
    let m1 := (alook e.n1 cmap).getD 0
    let m2 := (alook e.n2 cmap).getD 0
    if e.dir = dirs.1 then
      (addEdge gs.1 m1 (m2, e.size), addEdge gs.2 m2 (m1, e.size))
    else
      (addEdge gs.1 m2 (m1, e.size), addEdge gs.2 m1 (m2, e.size))
  else gs

/-- The third loop of `_make_graphs` over all elements; every key starts
out with an empty edge list. -/
def buildEdges (dirs : Ident × Ident) (cmap : List (Ident × Nat))
    (es : List Elt) : Graph × Graph :=
  es.foldl (graphStep dirs cmap) (fun _ => [], fun _ => [])

/-- Orphan chaining: nodes `1..cnode` with an empty edge list in one graph
are attached, with weight `0`, to virtual node `0` of the other graph
(`graph[0] = rorphans; rgraph[0] = orphans`). -/
def finishGraphs (cnode : Nat) (g rg : Graph) : Graph × Graph :=
  let orphans := (List.range' 1 cnode).filterMap
    (fun m => if g m = [] then some (m, (0 : ℚ)) else none)
  let rorphans := (List.range' 1 cnode).filterMap
    (fun m => if rg m = [] then some (m, (0 : ℚ)) else none)
  (fun u => if u = 0 then rorphans else g u,
   fun u => if u = 0 then orphans else rg u)

/-- The memo dict of `longest_path` (prepended entries shadow older ones,
like dict assignment). -/
abbrev Memo := List (Nat × ℚ)

/-- The `for from_node, size in from_nodes[to_node]` loop of
`get_longest`, parametrised by the recursive call `f`. -/
def goEdges (f : Nat → Memo → Option (ℚ × Memo)) :
    List (Nat × ℚ) → ℚ → Memo → Option (ℚ × Memo)
  | [], best, memo => some (best, memo)
  | (u, w) :: rest, best, memo =>
    match f u memo with
    | none => none
    | some (x, memo1) => goEdges f rest (qmax best (qadd x w)) memo1

/-- `get_longest` of `longest_path`, with explicit fuel: `none` models the
unbounded recursion the Python source runs into on a cyclic graph (there
is no cycle detection in the source). -/
def getLongest (g : Graph) : Nat → Nat → Memo → Option (ℚ × Memo)
  | 0, _, _ => none
  | fuel + 1, v, memo =>
    match nlook v memo with
    | some x => some (x, memo)
    | none =>
      match goEdges (getLongest g fuel) (g v) 0 memo with
      | none => none
      | some (best, memo1) => some (best, (v, best) :: memo1)

/-- The list comprehension `[(get_longest(n), n) for n in all_nodes]`,
sharing one memo; returns the values in node order. -/
def evalNodes (g : Graph) (fuel : Nat) : List Nat → Memo → Option (List ℚ × Memo)
  | [], memo => some ([], memo)
  | v :: rest, memo =>
    match getLongest g fuel v memo with
    | none => none
    | some (x, memo1) =>
      match evalNodes g fuel rest memo1 with
      | none => none
      | some (xs, memo2) => some (x :: xs, memo2)

/-- `longest_path(all_nodes, from_nodes)`: the returned length is the
maximum of the per-node values (Python's `max` over `(value, node)` pairs,
projected to the value). -/
def longestPathRun (g : Graph) (ns : List Nat) (fuel : Nat) : Option (ℚ × Memo) :=
  match evalNodes g fuel ns [] with
  | none => none
  | some (vals, memo) =>
    match vals with
    | [] => none
    | x :: rest => some (rest.foldl qmax x, memo)

/-- The final loop of `_make_graphs`: for every collective node except
`0`, every one of its terminals receives
`0.5 * ((length - memo[cnode]) + memor[cnode])`. -/
def buildPos (cnode : Nat) (cnodes : List (Nat × List Ident)) (len : ℚ)
    (memo memor : Memo) : List (Ident × ℚ) :=
  (List.range (cnode + 1)).foldl
    (fun acc c =>
      if c = 0 then acc
      else acc ++ ((nlook c cnodes).getD []).map
        (fun n => (n, qhalf (qadd (qsub len ((nlook c memo).getD 0)) ((nlook c memor).getD 0)))))
    []

/-- Errors of a layout pass: the `ValueError('Conflict for elt ...')` of
axis unification (carrying the element name), and non-termination of the
schedulers' memoized recursion. -/
inductive LayErr where
  | conflict (elt : Ident)
  | nonterm
deriving DecidableEq, Repr

/-- `Schematic._make_graphs(dirs)`.  Note that the source binds `length`
twice — the value used by the position loop is the one of the *reverse*
graph run. -/
def makeGraphsF (fuel : Nat) (es : List Elt) (dirs : Ident × Ident) :
    Except LayErr (List (Ident × ℚ)) :=
  match unifyFold dirs es with
  | .error nm => .error (.conflict nm)
  | .ok st0 =>
    let st := augmentFold dirs st0 es
    let ge := (buildEdges dirs st.cnodeMap es).1
    let rge := (buildEdges dirs st.cnodeMap es).2
    let g := (finishGraphs st.cnode ge rge).1
    let rg := (finishGraphs st.cnode ge rge).2
    let ns := List.range (st.cnode + 1)
    match longestPathRun g ns fuel with
    | none => .error .nonterm
    | some (_lengthFwd, memo) =>
      match longestPathRun rg ns fuel with
      | none => .error .nonterm
      | some (len, memor) => .ok (buildPos st.cnode st.cnodes len memo memor)

/-- Fuel sufficient for every terminating run: each element allocates at
most two collective nodes, and the memoized recursion of a terminating
run nests at most one frame per node. -/
def defaultFuel (es : List Elt) : Nat := 2 * es.length + 2

/-- `Schematic._positions_calculate` with the scale applied
(`coords[node] = (xpos[node] * scale, ypos[node] * scale)`). -/
def positionsCalculate (scale : ℚ) (es : List Elt) :
    Except LayErr (List (Ident × (ℚ × ℚ))) :=
  match makeGraphsF (defaultFuel es) es (rightI, leftI) with
  | .error e => .error e
  | .ok xpos =>
    match makeGraphsF (defaultFuel es) es (upI, downI) with
    | .error e => .error e
    | .ok ypos =>
      .ok (xpos.map (fun p => (p.1, (qmul p.2 scale, qmul ((alook p.1 ypos).getD 0) scale))))

/-! ## The entity / netlist layer

`NetElement.__init__`, `Node`, `Schematic.add` and the implicit-wire
synthesis.  Display-only fields of the source (`symbol`, `autolabel`) are
omitted; everything the claims touch is kept. -/

/-- The keys of `cpt_type_map`, sorted by decreasing length as the source
does before building the alternation regex (so that the longest name
matches first; names of equal length are mutually exclusive prefixes). -/
def cptTypes : List Ident :=
  ["port".toList, "wire".toList, "Vac".toList, "Vdc".toList, "Iac".toList,
   "Idc".toList, "TF".toList, "R".toList, "C".toList, "L".toList,
   "V".toList, "I".toList, "v".toList, "i".toList, "P".toList, "W".toList]

/-- A regex `\w` character. -/
def isWordChar (c : Char) : Bool :=
  ('a' ≤ c ∧ c ≤ 'z') ∨ ('A' ≤ c ∧ c ≤ 'Z') ∨ ('0' ≤ c ∧ c ≤ '9') ∨ c = '_'

/-- `cpt_type_pattern.match(name)`: the first component-type alternative
that matches at the start of the name, plus the optional single `\w`
identifier character that follows. -/
def matchCpt (name : Ident) : Option (Ident × Option Char) :=
  match cptTypes.find? (fun t => t.isPrefixOf name) with
  | none => none
  | some t =>
    match name.drop t.length with
    | [] => some (t, none)
    | c :: _ => some (t, if isWordChar c then some c else none)

/-- The recognised options of an element, as produced by
`Schematic._opts_parse`: the direction slot, the raw `size` string
(default `"1"`; `float()` conversion happens only inside the layout
pass), and the pass-through display options. -/
structure Opts where
  dir : Option Ident
  size : Ident
  other : List (Ident × Ident)
deriving DecidableEq, Repr

def defaultOpts : Opts := ⟨none, ['1'], []⟩

/-- Python `part.strip()`. -/
def stripChars (l : List Char) : List Char :=
  ((l.dropWhile Char.isWhitespace).reverse.dropWhile Char.isWhitespace).reverse

/-- One comma-separated part of the options string. -/
def optsStep (o : Opts) (partRaw : List Char) : Opts :=
  let p := stripChars partRaw
  if p = upI ∨ p = downI ∨ p = leftI ∨ p = rightI then { o with dir := some p }
  else
    let fields := splitOnChar '=' p
    let key := stripChars (fields.headD [])
    let arg := stripChars ((fields.get? 1).getD [])
    if key = "dir".toList then { o with dir := some arg }
    else if key = "size".toList then { o with size := arg }
    else { o with other := (key, arg) :: o.other }

/-- `Schematic._opts_parse`. -/
def optsParse (s : Ident) : Opts :=
  (splitOnChar ',' s).foldl optsStep defaultOpts

/-- The parsed element record stored by the schematic (`NetElement`). -/
structure NetElt where
  name : Ident
  cptType : Ident
  nodes : Ident × Ident
  dir : Ident
  size : Ident
  other : List (Ident × Ident)
deriving DecidableEq, Repr

/-- Failures of adding one element: the component-name regex does not
match (`ValueError('Unknown component ...')`), or the specification does
not provide a name and two terminals (`TypeError` from
`NetElement(*parts)`). -/
inductive AddErr where
  | unknownComponent (name : Ident)
  | missingFields
deriving DecidableEq, Repr

/-- `'#%d' % n`. -/
def hashId (n : Nat) : Ident := '#' :: Nat.toDigits 10 n

/-- `NetElement.__init__`.  `counter` is the class-level
`cpt_type_counter`; the display-only `symbol` / `autolabel` computation is
omitted.  Construction validates nothing except the component-name match:
equal terminals and arbitrary size strings are accepted. -/
def mkNetElement (counter : Nat) (name n1 n2 : Ident) (args : List Ident)
    (opts : Opts) : Except AddErr (NetElt × Nat) :=
  match matchCpt name with
  | none => .error (.unknownComponent name)
  | some (cpt, id?) =>
    let counter' := if id?.isNone then counter + 1 else counter
    let name' := match id? with
      | some _ => name
      | none => cpt ++ hashId (counter + 1)
    let n1' := dotToUnderscore n1
    let n2' := dotToUnderscore n2
    let cpt1 :=
      if args ≠ [] then
        if cpt = "V".toList ∧ args.headD [] = "ac".toList then "Vac".toList
        else if cpt = "V".toList ∧ args.headD [] = "dc".toList then "Vdc".toList
        else if cpt = "I".toList ∧ args.headD [] = "ac".toList then "Iac".toList
        else if cpt = "I".toList ∧ args.headD [] = "dc".toList then "Idc".toList
        else cpt
      else cpt
    let dir := match opts.dir with
      | some d => d
      | none => if cpt1 = "port".toList ∨ cpt1 = "P".toList then downI else rightI
    .ok (⟨name', cpt1, (n1', n2'), dir, opts.size, opts.other⟩, counter')

/-- The `Node` record: net-root name and primality are derived from the
(already dot-normalised) identifier by splitting on `'_'`. -/
structure NodeR where
  name : Ident
  rootname : Ident
  primary : Bool
  port : Bool
  elts : List Ident
deriving DecidableEq, Repr

/-- `Node.__init__`. -/
def mkNode (name : Ident) : NodeR :=
  let parts := splitOnChar '_' name
  ⟨name, parts.headD [], parts.length = 1, false, []⟩

/-- `Node.append(elt)`. -/
def nodeAppend (e : NetElt) (nd : NodeR) : NodeR :=
  { nd with
    port := if e.cptType = "P".toList ∨ e.cptType = "port".toList ∨
               e.cptType = "open".toList then true else nd.port,
    elts := nd.elts ++ [e.name] }

/-- The mutable state of a `Schematic`: elements by name, node records by
identifier, and the per-net alias dict `vnodes` (net-root ↦ alias ↦ first
referencing element). -/
structure SchemState where
  elements : List (Ident × NetElt)
  nodes : List (Ident × NodeR)
  vnodes : List (Ident × List (Ident × Ident))
deriving DecidableEq, Repr

def emptySchem : SchemState := ⟨[], [], []⟩

/-- In-place update of the node record stored at `k`. -/
def nodeUpdate (ns : List (Ident × NodeR)) (k : Ident) (f : NodeR → NodeR) :
    List (Ident × NodeR) :=
  ns.map (fun p => if p.1 = k then (p.1, f p.2) else p)

/-- In-place overwrite-or-append for the elements dict. -/
def eltSet (es : List (Ident × NetElt)) (k : Ident) (v : NetElt) :
    List (Ident × NetElt) :=
  if (alook k es).isSome then es.map (fun p => if p.1 = k then (p.1, v) else p)
  else es ++ [(k, v)]

/-- `Schematic._node_add(node, elt)`: create the node record on first
reference, append the element to it, and record the alias under its
net-root.  The association list stores the *contents* of the Python 2
inner dict (each alias exactly once, with its first referencing
element); the list order is merely storage order (first encountered) —
the source's dict fixes no iteration order over these keys, which is why
`makeWires1Keys` below takes the key enumeration as a parameter. -/
def nodeAdd (st : SchemState) (node : Ident) (e : NetElt) : SchemState :=
  let ns := if (alook node st.nodes).isNone
    then st.nodes ++ [(node, mkNode node)] else st.nodes
  let ns2 := nodeUpdate ns node (nodeAppend e)
  let vn := ((alook node ns2).getD (mkNode node)).rootname
  let vs := if (alook vn st.vnodes).isNone then st.vnodes ++ [(vn, [])] else st.vnodes
  let inner := (alook vn vs).getD []
  let vs2 := if (alook node inner).isNone
    then vs.map (fun p => if p.1 = vn then (p.1, p.2 ++ [(node, e.name)]) else p)
    else vs
  ⟨st.elements, ns2, vs2⟩

/-- `Schematic._elt_add(elt)` (duplicate names overwrite the stored
element but, as the source notes, do not update prior bookkeeping). -/
def eltAdd (st : SchemState) (e : NetElt) : SchemState :=
  let st1 : SchemState := ⟨eltSet st.elements e.name e, st.nodes, st.vnodes⟩
  nodeAdd (nodeAdd st1 e.nodes.1 e) e.nodes.2 e

/-- `Schematic.add(line)`: split off the options, split the first field
on spaces, and construct the element; every failure happens before any
state is touched, so an error leaves the schematic exactly as it was. -/
def addLine (st : SchemState) (counter : Nat) (line : Ident) :
    Except AddErr (SchemState × Nat) :=
  let fields := splitOnChar ';' line
  let opts := optsParse ((fields.get? 1).getD [])
  match splitOnChar ' ' (fields.headD []) with
  | nm :: a :: b :: args =>
    match mkNetElement counter nm a b args opts with
    | .error err => .error err
    | .ok (e, c') => .ok (eltAdd st e, c')
  | _ => .error .missingFields

/-- `Schematic._make_wires1(vnode)` read at the *stored* order:
`len(vnode) - 1` wires between consecutive aliases of one net (each one
a `NetElement('W_', n1, n2)`; here represented by its terminal pair).
This is the special case of `makeWires1Keys` in which `vnode.keys()`
happens to enumerate in first-encountered order; the source guarantees
no such thing, so the claim-level theorems use `makeWires1Keys`. -/
def makeWires1 (vnode : List (Ident × Ident)) : List (Ident × Ident) :=
  let numWires := vnode.length - 1
  if numWires = 0 then []
  else (List.range numWires).map
    (fun n => (((vnode.get? n).getD ([], [])).1, ((vnode.get? (n + 1)).getD ([], [])).1))

/-- `Schematic._make_wires()` read at the stored order (see
`makeWiresKeys` for the faithful, enumeration-explicit version). -/
def makeWires (st : SchemState) : List (Ident × Ident) :=
  st.vnodes.foldl (fun acc p => acc ++ makeWires1 p.2) []

/-- `Schematic._make_wires1(vnode)` with the Python 2 dict key
enumeration made explicit: `vnode.keys()` yields the aliases of the net
in the hash table's order — *some* permutation of the stored aliases,
the source pins down no particular one.  `ks` is that enumeration; the
loop pairs `keys()[n]` with `keys()[n + 1]` for `n < len(vnode) - 1`. -/
def makeWires1Keys (ks : List Ident) : List (Ident × Ident) :=
  let numWires := ks.length - 1
  if numWires = 0 then []
  else (List.range numWires).map
    (fun n => ((ks.get? n).getD [], (ks.get? (n + 1)).getD []))

/-- `Schematic._make_wires()` with every dict enumeration explicit:
`orders` lists, net by net in the outer `vnodes.values()` enumeration
order, the key enumeration of each inner alias dict; the wires of all
nets are concatenated. -/
def makeWiresKeys (orders : List (List Ident)) : List (Ident × Ident) :=
  orders.foldl (fun acc ks => acc ++ makeWires1Keys ks) []

/-! ## Concrete inputs used by the claim instances -/

def t0I : Ident := "t0".toList
def t1I : Ident := "t1".toList
def t2I : Ident := "t2".toList
def t3I : Ident := "t3".toList
def aI : Ident := "a".toList
def bI : Ident := "b".toList
def cI : Ident := "c".toList
def dI : Ident := "d".toList

/-- Three series elements, each `right` with minimum size 1, chained
`t0 → t1 → t2 → t3` (the worked example of the specification). -/
def elems3 : List Elt :=
  [ ⟨"R1".toList, t0I, t1I, rightI, 1⟩,
    ⟨"R2".toList, t1I, t2I, rightI, 1⟩,
    ⟨"R3".toList, t2I, t3I, rightI, 1⟩ ]

/-- Three `right` elements forming the direction cycle `a → b → c → a`. -/
def cycElems : List Elt :=
  [ ⟨"R1".toList, aI, bI, rightI, 1⟩,
    ⟨"R2".toList, bI, cI, rightI, 1⟩,
    ⟨"R3".toList, cI, aI, rightI, 1⟩ ]

/-- Two vertical elements build two distinct collective nodes for the
horizontal pass; a third vertical element bridges them: a conflict. -/
def confElems : List Elt :=
  [ ⟨"C1".toList, aI, bI, downI, 1⟩,
    ⟨"C2".toList, cI, dI, downI, 1⟩,
    ⟨"C3".toList, aI, cI, downI, 1⟩ ]

/-- A single horizontal element of size 1. -/
def oneElt : List Elt := [⟨"R1".toList, aI, bI, rightI, 1⟩]

/-- The forward graph the layout pass builds for `cycElems` on the
horizontal axis. -/
def cycG : Graph :=
  (finishGraphs 3
    (buildEdges (rightI, leftI)
      (augmentFold (rightI, leftI) ⟨[], [], 0⟩ cycElems).cnodeMap cycElems).1
    (buildEdges (rightI, leftI)
      (augmentFold (rightI, leftI) ⟨[], [], 0⟩ cycElems).cnodeMap cycElems).2).1

/-- Two anonymous wires sharing net `0`: aliases `0`, `0_1`, `0_2`. -/
def wireElt1 : NetElt := ⟨"W#1".toList, "W".toList, ("0".toList, "0_1".toList), rightI, ['1'], []⟩
def wireElt2 : NetElt := ⟨"W#2".toList, "W".toList, ("0".toList, "0_2".toList), rightI, ['1'], []⟩
def schemWires : SchemState := eltAdd (eltAdd emptySchem wireElt1) wireElt2

/-- Does a net line parse into the fields `Schematic.add` requires
(a recognised component name and two terminals)?  Mirrors the branching
of `addLine`. -/
def lineParses (line : Ident) : Bool :=
  match splitOnChar ' ' ((splitOnChar ';' line).headD []) with
  | nm :: _ :: _ :: _ => (matchCpt nm).isSome
  | _ => false

/-! ## Invariant predicates used by the scheduler proofs -/

/-- `m'` preserves every lookup of `m`. -/
def MemoExtends (m m' : Memo) : Prop := ∀ k y, nlook k m = some y → nlook k m' = some y

/-- `GStep g u p`: evaluating `u` recurses into `p` (there is a stored
edge `(p, w)` in `from_nodes[u]`). -/
def GStep (g : Graph) (u p : Nat) : Prop := ∃ w, (p, w) ∈ g u

/-- No node lying on a recursion cycle has a memo entry (true initially,
and preserved: such nodes can never finish evaluating). -/
def CycFree (g : Graph) (memo : Memo) : Prop :=
  ∀ k, Relation.TransGen (GStep g) k k → nlook k memo = none

/-- Every memo entry is a sound and tight longest-path value: it is
non-negative, dominates every parent entry plus the edge weight, and is
either `0` or attained by some parent edge. -/
def Sound (g : Graph) (memo : Memo) : Prop :=
  ∀ k y, nlook k memo = some y → 0 ≤ y ∧
    (∀ p w, (p, w) ∈ g k → ∃ z, nlook p memo = some z ∧ z + w ≤ y) ∧
    (y = 0 ∨ ∃ p w, (p, w) ∈ g k ∧ ∃ z, nlook p memo = some z ∧ y = z + w)

/-- All memo values are bounded by the potential `P`. -/
def BoundedBy (P : Nat → ℚ) (memo : Memo) : Prop :=
  ∀ k y, nlook k memo = some y → y ≤ P k

/-- All memo keys are below `N`. -/
def KeysLt (N : Nat) (memo : Memo) : Prop := ∀ k y, nlook k memo = some y → k < N

/-- The potential induced on one graph of an axis pass by the memo of the
mirrored run: `Lr` at the virtual node `0`, `Lr - memor[v]` elsewhere. -/
def dualPot (Lr : ℚ) (memor : Memo) (v : Nat) : ℚ :=
  if v = 0 then Lr else Lr - (nlook v memor).getD 0

/-- Invariant of the collective-node state: every mapped terminal points
to an allocated collective node, the allocated node numbers are exactly
`1..cnode` in order, and the terminal lists agree with the map in both
directions. -/
def CInv (st : CState) : Prop :=
  (∀ n c, alook n st.cnodeMap = some c → 1 ≤ c ∧ c ≤ st.cnode) ∧
  (st.cnodes.map Prod.fst = List.range' 1 st.cnode) ∧
  (∀ c l, nlook c st.cnodes = some l → ∀ n ∈ l, alook n st.cnodeMap = some c) ∧
  (∀ n c, alook n st.cnodeMap = some c → ∃ l, nlook c st.cnodes = some l ∧ n ∈ l)

/-- The forward and reverse edge stores of `_make_graphs` mirror each
other, with all endpoints among the allocated collective nodes. -/
def EdgePaired (cnode : Nat) (gE rgE : Graph) : Prop :=
  (∀ v p w, (p, w) ∈ gE v → 1 ≤ p ∧ p ≤ cnode ∧ 1 ≤ v ∧ v ≤ cnode ∧ (v, w) ∈ rgE p) ∧
  (∀ v p w, (p, w) ∈ rgE v → 1 ≤ p ∧ p ≤ cnode ∧ 1 ≤ v ∧ v ≤ cnode ∧ (v, w) ∈ gE p)

/-! ## Bridge lemmas for the computable rational operations -/

theorem qadd_eq (a b : ℚ) : qadd a b = a + b := (Rat.add_def' a b).symm

theorem qsub_eq (a b : ℚ) : qsub a b = a - b := (Rat.sub_def' a b).symm

theorem qmul_eq (a b : ℚ) : qmul a b = a * b := by
  rw [qmul, Rat.mkRat_eq_divInt]
  push_cast
  rw [← Rat.divInt_mul_divInt _ _
        (Int.natCast_ne_zero.mpr a.den_nz) (Int.natCast_ne_zero.mpr b.den_nz),
      Rat.divInt_self, Rat.divInt_self]

theorem qhalf_eq (a : ℚ) : qhalf a = a / 2 := by
  rw [qhalf, Rat.mkRat_eq_divInt, Rat.divInt_eq_div]
  push_cast
  rw [div_mul_eq_div_div, Rat.num_div_den]

theorem qmax_eq (a b : ℚ) : qmax a b = max a b := by
  by_cases h : a < b
  · simp [qmax, (show Rat.blt a b = true from h), max_eq_right h.le]
  · have hb : Rat.blt a b = false := by
      cases hc : Rat.blt a b
      · rfl
      · exact absurd (show a < b from hc) h
    simp [qmax, hb, max_eq_left (not_lt.mp h)]

/-! ## Association-list and split helpers -/

/-- An association-list lookup that succeeds splits the list. -/
theorem alook_split {β : Type} {k : Ident} {l : List (Ident × β)} {v : β}
    (h : alook k l = some v) :
    ∃ l1 l2, l = l1 ++ (k, v) :: l2 ∧ alook k l1 = none := by
  induction l with
  | nil => simp [alook] at h
  | cons p rest ih =>
    by_cases hk : p.1 = k
    · refine ⟨[], rest, ?_, rfl⟩
      have hv : some p.2 = some v := by simpa [alook, hk] using h
      obtain rfl : p.2 = v := by injection hv
      simp [← hk]
    · have h' : alook k rest = some v := by simpa [alook, hk] using h
      obtain ⟨l1, l2, rfl, hl1⟩ := ih h'
      exact ⟨p :: l1, l2, by simp, by simp [alook, hk, hl1]⟩

theorem splitOnChar_ne_nil (c : Char) (l : List Char) : splitOnChar c l ≠ [] := by
  cases l with
  | nil => simp [splitOnChar]
  | cons a rest =>
    by_cases h : a = c
    · simp [splitOnChar, h]
    · simp only [splitOnChar, h, if_false]
      cases hs : splitOnChar c rest <;> simp

theorem splitOnChar_headD (c : Char) (l : List Char) :
    (splitOnChar c l).headD [] = l.takeWhile (fun x => x ≠ c) := by
  induction l with
  | nil => simp [splitOnChar]
  | cons a rest ih =>
    by_cases h : a = c
    · simp [splitOnChar, h, List.takeWhile]
    · cases hs : splitOnChar c rest with
      | nil => exact absurd hs (splitOnChar_ne_nil c rest)
      | cons p ps =>
        rw [hs] at ih
        simp only [List.headD] at ih
        simp only [decide_not] at ih
        simp [splitOnChar, h, hs, List.takeWhile, ← ih]

theorem splitOnChar_length_ge_two {c : Char} {l : List Char} (h : c ∈ l) :
    2 ≤ (splitOnChar c l).length := by
  induction l with
  | nil => simp at h
  | cons a rest ih =>
    by_cases hac : a = c
    · have h1 : 1 ≤ (splitOnChar c rest).length :=
        List.length_pos.mpr (splitOnChar_ne_nil c rest)
      simp [splitOnChar, hac]
      omega
    · have hm : c ∈ rest := by
        rcases List.mem_cons.mp h with h' | h'
        · exact absurd h'.symm hac
        · exact h'
      cases hs : splitOnChar c rest with
      | nil => exact absurd hs (splitOnChar_ne_nil c rest)
      | cons p ps =>
        have h2 := ih hm
        rw [hs] at h2
        simp only [List.length_cons] at h2
        simp [splitOnChar, hac, hs]
        omega

/-! ## Claim C10: dot-normalisation of node identifiers -/

/-- Identifiers whose characters differ only as `'.'` versus `'_'`
normalise identically. -/
theorem dotToUnderscore_eq_of_aliases {s t : Ident}
    (h : List.Forall₂
      (fun a b => a = b ∨ ((a = '.' ∨ a = '_') ∧ (b = '.' ∨ b = '_'))) s t) :
    dotToUnderscore s = dotToUnderscore t := by
  induction h with
  | nil => rfl
  | cons hab _ ih =>
    simp only [dotToUnderscore, List.map_cons] at ih ⊢
    rw [ih]
    rcases hab with rfl | ⟨ha, hb⟩
    · rfl
    · rcases ha with rfl | rfl <;> rcases hb with rfl | rfl <;> rfl

theorem underscore_mem_dotToUnderscore {s : Ident} (h : '.' ∈ s) :
    '_' ∈ dotToUnderscore s :=
  List.mem_map.mpr ⟨'.', h, by norm_num⟩

/-- C10: every constructed element stores its two terminal identifiers
with each `'.'` replaced by `'_'`; identifiers that differ only in
`.`/`_` denote the same node key; and a node whose original identifier
contains a dot is non-primary, with net-root the prefix before the first
underscore of its stored name. -/
theorem node_dot_normalisation (counter : Nat) (name n1 n2 : Ident)
    (args : List Ident) (opts : Opts) (r : NetElt × Nat)
    (hok : mkNetElement counter name n1 n2 args opts = .ok r) :
    r.1.nodes = (dotToUnderscore n1, dotToUnderscore n2) ∧
    (∀ s t : Ident,
      List.Forall₂
        (fun a b => a = b ∨ ((a = '.' ∨ a = '_') ∧ (b = '.' ∨ b = '_'))) s t →
      dotToUnderscore s = dotToUnderscore t) ∧
    (∀ s : Ident, '.' ∈ s →
      (mkNode (dotToUnderscore s)).primary = false ∧
      (mkNode (dotToUnderscore s)).rootname =
        (dotToUnderscore s).takeWhile (fun x => x ≠ '_')) := by
  refine ⟨?_, fun s t h => dotToUnderscore_eq_of_aliases h, fun s hs => ⟨?_, ?_⟩⟩
  · cases hm : matchCpt name with
    | none => simp [mkNetElement, hm] at hok
    | some p =>
      obtain ⟨cpt, id?⟩ := p
      simp only [mkNetElement, hm] at hok
      obtain ⟨rfl, -⟩ : (_ = r) ∧ True := ⟨by injection hok, trivial⟩
      rfl
  · have h2 := splitOnChar_length_ge_two (underscore_mem_dotToUnderscore hs)
    simp only [mkNode]
    rw [decide_eq_false_iff_not]
    omega
  · simp only [mkNode]
    rw [← splitOnChar_headD]

theorem node_dot_normalisation_witness :
    mkNetElement 0 ("P1".toList) ("1".toList) ("0.1".toList) [] defaultOpts =
      .ok (⟨"P1".toList, "P".toList, ("1".toList, "0_1".toList), downI,
            ['1'], []⟩, 0) ∧
    ((⟨"P1".toList, "P".toList, ("1".toList, "0_1".toList), downI,
        ['1'], []⟩ : NetElt), (0 : Nat)).1.nodes =
      (dotToUnderscore ("1".toList), dotToUnderscore ("0.1".toList)) ∧
    (∀ s t : Ident,
      List.Forall₂
        (fun a b => a = b ∨ ((a = '.' ∨ a = '_') ∧ (b = '.' ∨ b = '_'))) s t →
      dotToUnderscore s = dotToUnderscore t) ∧
    (∀ s : Ident, '.' ∈ s →
      (mkNode (dotToUnderscore s)).primary = false ∧
      (mkNode (dotToUnderscore s)).rootname =
        (dotToUnderscore s).takeWhile (fun x => x ≠ '_')) :=
  ⟨by decide, node_dot_normalisation 0 ("P1".toList) ("1".toList) ("0.1".toList)
      [] defaultOpts _ (by decide)⟩

/-! ## Claims C8 and C9: element construction and malformed additions -/

/-- C8 (amended): element construction succeeds exactly when the
component-name pattern matches; the terminals and the size are not
validated at all. -/
theorem element_construct_iff_match (counter : Nat) (name n1 n2 : Ident)
    (args : List Ident) (opts : Opts) :
    (∃ r, mkNetElement counter name n1 n2 args opts = .ok r) ↔
      (matchCpt name).isSome := by
  cases h : matchCpt name with
  | none => simp [mkNetElement, h]
  | some p => cases p with
    | mk cpt id? => simp [mkNetElement, h]

/-- C8 counterexample: an element with equal terminals and a negative
size string is constructed without any failure, refuting the claimed
validation. -/
theorem element_no_validation_counterexample :
    mkNetElement 0 ("R1".toList) ("2".toList) ("2".toList) []
        ⟨none, "-5".toList, []⟩ =
      .ok (⟨"R1".toList, "R".toList, ("2".toList, "2".toList), rightI,
            "-5".toList, []⟩, 0) := by
  decide

/-- C9: a specification that does not provide a recognised component name
and two terminals makes `add` fail, with an error value that does not
depend on the schematic state — nothing is inserted and prior elements
and node bookkeeping are untouched (in the embedding, the state is only
used after construction succeeds). -/
theorem add_malformed (st : SchemState) (counter : Nat) (line : Ident)
    (h : lineParses line = false) :
    ∃ err, addLine st counter line = .error err ∧
      ∀ st2 : SchemState, addLine st2 counter line = .error err := by
  unfold lineParses at h
  rcases hsp : splitOnChar ' ' ((splitOnChar ';' line).headD []) with
    _ | ⟨nm, _ | ⟨a, _ | ⟨b, args⟩⟩⟩
  · refine ⟨.missingFields, ?_, fun st2 => ?_⟩ <;> (simp only [addLine]; rw [hsp])
  · refine ⟨.missingFields, ?_, fun st2 => ?_⟩ <;> (simp only [addLine]; rw [hsp])
  · refine ⟨.missingFields, ?_, fun st2 => ?_⟩ <;> (simp only [addLine]; rw [hsp])
  · rw [hsp] at h
    cases hm : matchCpt nm with
    | none =>
      refine ⟨.unknownComponent nm, ?_, fun st2 => ?_⟩ <;>
        (simp only [addLine]; rw [hsp]; simp [mkNetElement, hm])
    | some p => simp [hm] at h

theorem add_malformed_witness :
    lineParses ("X1 1 2; right".toList) = false ∧
      ∃ err, addLine emptySchem 0 ("X1 1 2; right".toList) = .error err ∧
        ∀ st2 : SchemState, addLine st2 0 ("X1 1 2; right".toList) = .error err :=
  ⟨by decide, add_malformed emptySchem 0 _ (by decide)⟩

/-! ## Claim C6: wire inference -/

theorem makeWires1_length (l : List (Ident × Ident)) :
    (makeWires1 l).length = l.length - 1 := by
  unfold makeWires1
  by_cases h : l.length - 1 = 0 <;> simp [h]

theorem makeWires1_singleton (l : List (Ident × Ident)) (h : l.length = 1) :
    makeWires1 l = [] := by
  unfold makeWires1
  simp [h]

theorem makeWires1_consecutive (l : List (Ident × Ident)) (i : Nat)
    (h : i + 1 < l.length) :
    (makeWires1 l).get? i =
      some (((l.get? i).getD ([], [])).1, ((l.get? (i + 1)).getD ([], [])).1) := by
  unfold makeWires1
  have hlen : l.length - 1 ≠ 0 := by omega
  have hi : i < l.length - 1 := by omega
  simp only [hlen, if_false, List.get?_eq_getElem?, List.getElem?_map,
    List.getElem?_range hi]
  rfl

theorem wiresFold_init (l : List (Ident × List (Ident × Ident)))
    (init : List (Ident × Ident)) :
    l.foldl (fun acc p => acc ++ makeWires1 p.2) init =
      init ++ l.foldl (fun acc p => acc ++ makeWires1 p.2) [] := by
  induction l generalizing init with
  | nil => simp
  | cons p rest ih =>
    simp only [List.foldl_cons]
    rw [ih (init ++ makeWires1 p.2), ih (List.nil ++ makeWires1 p.2)]
    simp

/-! ## Claim C2: the direction cycle -/

theorem cycG_edges : cycG 0 = [] ∧ cycG 1 = [(2, 1)] ∧ cycG 2 = [(3, 1)] ∧
    cycG 3 = [(1, 1)] := by
  refine ⟨?_, ?_, ?_, ?_⟩ <;> decide

/-- On the cyclic constraint graph, `get_longest` never returns, whatever
the recursion budget: evaluating any cycle node re-enters the cycle. -/
theorem cyc_getLongest_none :
    ∀ fuel (memo : Memo), nlook 1 memo = none → nlook 2 memo = none →
      nlook 3 memo = none →
      getLongest cycG fuel 1 memo = none ∧ getLongest cycG fuel 2 memo = none ∧
        getLongest cycG fuel 3 memo = none := by
  intro fuel
  induction fuel with
  | zero => intro memo _ _ _; exact ⟨rfl, rfl, rfl⟩
  | succ n ih =>
    intro memo h1 h2 h3
    have ha : (alook aI (augmentFold (rightI, leftI)
        (⟨[], [], 0⟩ : CState) cycElems).cnodeMap).getD 0 = 1 := by decide
    have hb : (alook bI (augmentFold (rightI, leftI)
        (⟨[], [], 0⟩ : CState) cycElems).cnodeMap).getD 0 = 2 := by decide
    have hc : (alook cI (augmentFold (rightI, leftI)
        (⟨[], [], 0⟩ : CState) cycElems).cnodeMap).getD 0 = 3 := by decide
    refine ⟨?_, ?_, ?_⟩
    · simp only [getLongest, h1, goEdges, hb, (ih memo h1 h2 h3).2.1]
    · simp only [getLongest, h2, goEdges, hc, (ih memo h1 h2 h3).2.2]
    · simp only [getLongest, h3, goEdges, ha, (ih memo h1 h2 h3).1]

/-- C2: on the three-element direction cycle the horizontal layout pass
never terminates, for every recursion budget.  The source has no cycle
detection and defines no `InconsistentLayoutError`; the claimed behaviour
is absent from the code. -/
theorem cycle_never_terminates (fuel : Nat) :
    makeGraphsF fuel cycElems (rightI, leftI) = .error .nonterm := by
  cases fuel with
  | zero => decide
  | succ n =>
    have h0 : getLongest cycG (n + 1) 0 [] = some (0, [(0, 0)]) := by
      simp only [getLongest, nlook, cycG_edges.1, goEdges]
    have h1 : getLongest cycG (n + 1) 1 [(0, 0)] = none :=
      (cyc_getLongest_none (n + 1) [(0, 0)] (by decide) (by decide) (by decide)).1
    have hrun : longestPathRun cycG (List.range 4) (n + 1) = none := by
      simp only [longestPathRun, show List.range 4 = [0, 1, 2, 3] from rfl,
        evalNodes, h0, h1]
    simp only [cycG] at hrun
    simp only [makeGraphsF,
      show unifyFold (rightI, leftI) cycElems = .ok ⟨[], [], 0⟩ from by decide,
      show (augmentFold (rightI, leftI) (⟨[], [], 0⟩ : CState) cycElems).cnode = 3
        from by decide]
    rw [show (3 : Nat) + 1 = 4 from rfl, hrun]

/-! ## Claim C3: conflicting collective nodes -/

theorem unifyFold_append_cons (dirs : Ident × Ident) (pre post : List Elt)
    (e : Elt) (st : CState) (hpre : unifyFold dirs pre = .ok st) :
    unifyFold dirs (pre ++ e :: post) =
      (unifyStep dirs st e).bind
        (fun st2 => post.foldlM (unifyStep dirs) st2) := by
  unfold unifyFold at *
  rw [List.foldlM_append, hpre]
  rfl

/-- C3: an orthogonal element whose terminals already lie in two distinct
collective nodes makes the axis pass fail with the conflict error naming
that element, and the full position computation then produces no
coordinate map at all. -/
theorem conflict_aborts (fuel : Nat) (es : List Elt) (dirs : Ident × Ident)
    (pre post : List Elt) (e : Elt) (st : CState) (c1 c2 : Nat)
    (hes : es = pre ++ e :: post)
    (hpre : unifyFold dirs pre = .ok st)
    (hd1 : e.dir ≠ dirs.1) (hd2 : e.dir ≠ dirs.2)
    (h1 : alook e.n1 st.cnodeMap = some c1)
    (h2 : alook e.n2 st.cnodeMap = some c2)
    (hne : c1 ≠ c2) :
    makeGraphsF fuel es dirs = .error (.conflict e.name) ∧
    (dirs = (rightI, leftI) ∨ dirs = (upI, downI) →
      ∀ scale coords, positionsCalculate scale es ≠ .ok coords) := by
  have hu : unifyFold dirs es = .error e.name := by
    rw [hes, unifyFold_append_cons dirs pre post e st hpre]
    have hstep : unifyStep dirs st e = .error e.name := by
      unfold unifyStep
      simp [hd1, hd2, h1, h2, hne]
    rw [hstep]
    rfl
  have hmk : ∀ f, makeGraphsF f es dirs = .error (.conflict e.name) := by
    intro f
    unfold makeGraphsF
    rw [hu]
  refine ⟨hmk fuel, ?_⟩
  rintro (rfl | rfl) scale coords hok
  · unfold positionsCalculate at hok
    rw [hmk (defaultFuel es)] at hok
    exact Except.noConfusion hok
  · unfold positionsCalculate at hok
    revert hok
    cases hx : makeGraphsF (defaultFuel es) es (rightI, leftI) with
    | error err => intro hok; exact Except.noConfusion hok
    | ok xpos =>
      rw [hmk (defaultFuel es)]
      intro hok
      exact Except.noConfusion hok

theorem conflict_aborts_witness :
    makeGraphsF 8 confElems (rightI, leftI) =
      .error (.conflict ("C3".toList)) ∧
    (∀ scale coords, positionsCalculate scale confElems ≠ .ok coords) := by
  have h := conflict_aborts 8 confElems (rightI, leftI)
    [⟨"C1".toList, aI, bI, downI, 1⟩, ⟨"C2".toList, cI, dI, downI, 1⟩] []
    ⟨"C3".toList, aI, cI, downI, 1⟩
    ⟨[(dI, 2), (cI, 2), (bI, 1), (aI, 1)], [(1, [aI, bI]), (2, [cI, dI])], 2⟩
    1 2 (by decide) (by decide) (by decide) (by decide) (by decide) (by decide)
    (by decide)
  exact ⟨h.1, h.2 (Or.inl rfl)⟩

/-! ## Claims C5 and C7: the worked example and determinism -/

/-- C5: three series `right` elements of size 1 chained
`t0 → t1 → t2 → t3`, scale 2: x-coordinates 0, 2, 4, 6 and a common
y-coordinate 0; in the vertical pass all four terminals collapse into a
single collective node. -/
theorem worked_example_coords :
    (positionsCalculate 2 elems3).map
      (fun c => (alook t0I c, alook t1I c, alook t2I c, alook t3I c)) =
      .ok (some (0, 0), some (2, 0), some (4, 0), some (6, 0)) ∧
    (unifyFold (upI, downI) elems3).map
      (fun st => (augmentFold (upI, downI) st elems3).cnode) = .ok 1 := by
  constructor
  · decide
  · decide

/-- C7: the position synthesizer is a deterministic pure function of the
ordered element list: two runs on equal inputs return equal results, and
in particular equal coordinates for every terminal on both axes. -/
theorem positions_deterministic (scale : ℚ) (es1 es2 : List Elt)
    (h : es1 = es2) :
    positionsCalculate scale es1 = positionsCalculate scale es2 ∧
    ∀ node c1 c2, positionsCalculate scale es1 = .ok c1 →
      positionsCalculate scale es2 = .ok c2 → alook node c1 = alook node c2 := by
  subst h
  refine ⟨rfl, fun node c1 c2 h1 h2 => ?_⟩
  rw [h1] at h2
  injection h2 with h
  rw [h]

theorem positions_deterministic_witness :
    elems3 = elems3 ∧
    (positionsCalculate 2 elems3 = positionsCalculate 2 elems3 ∧
      ∀ node c1 c2, positionsCalculate 2 elems3 = .ok c1 →
        positionsCalculate 2 elems3 = .ok c2 →
          alook node c1 = alook node c2) :=
  ⟨rfl, positions_deterministic 2 elems3 elems3 rfl⟩

/-! ## Scheduler lemmas: memo extension and cycle behaviour -/

theorem goEdges_extends (f : Nat → Memo → Option (ℚ × Memo))
    (Hf : ∀ u memo x memo', f u memo = some (x, memo') → MemoExtends memo memo') :
    ∀ (l : List (Nat × ℚ)) best memo x memo',
      goEdges f l best memo = some (x, memo') → MemoExtends memo memo' := by
  intro l
  induction l with
  | nil =>
    intro best memo x memo' h
    simp only [goEdges] at h
    obtain ⟨rfl, rfl⟩ := Prod.mk.injEq _ _ _ _ ▸ Option.some.injEq _ _ ▸ h
    exact fun k y hk => hk
  | cons e rest ih =>
    intro best memo x memo' h
    obtain ⟨u, w⟩ := e
    simp only [goEdges] at h
    cases hf : f u memo with
    | none => rw [hf] at h; exact absurd h (by simp)
    | some p =>
      obtain ⟨xu, memo1⟩ := p
      rw [hf] at h
      exact fun k y hk => ih _ _ _ _ h k y (Hf u memo xu memo1 hf k y hk)

theorem getLongest_extends (g : Graph) :
    ∀ fuel v memo x memo',
      getLongest g fuel v memo = some (x, memo') → MemoExtends memo memo' := by
  intro fuel
  induction fuel with
  | zero => intro v memo x memo' h; exact absurd h (by simp [getLongest])
  | succ n ih =>
    intro v memo x memo' h
    simp only [getLongest] at h
    cases hv : nlook v memo with
    | some y =>
      rw [hv] at h
      obtain ⟨rfl, rfl⟩ : y = x ∧ memo = memo' := by
        constructor <;> [exact congrArg Prod.fst (Option.some.inj h);
          exact congrArg Prod.snd (Option.some.inj h)]
      exact fun k z hk => hk
    | none =>
      rw [hv] at h
      cases hgo : goEdges (getLongest g n) (g v) 0 memo with
      | none => rw [hgo] at h; exact absurd h (by simp)
      | some p =>
        obtain ⟨best, memo1⟩ := p
        rw [hgo] at h
        obtain ⟨rfl, rfl⟩ : best = x ∧ (v, best) :: memo1 = memo' := by
          constructor <;> [exact congrArg Prod.fst (Option.some.inj h);
            exact congrArg Prod.snd (Option.some.inj h)]
        intro k y hk
        have h1 := goEdges_extends (getLongest g n) (fun u m x' m' hf => ih u m x' m' hf)
          _ _ _ _ _ hgo k y hk
        by_cases hkv : k = v
        · subst hkv; rw [hv] at hk; exact absurd hk (by simp)
        · show nlook k ((v, best) :: memo1) = some y
          rw [nlook, if_neg (fun hh => hkv hh.symm)]
          exact h1

/-- Cycle behaviour of the memoized recursion: evaluation from a
cycle-free memo keeps the memo cycle-free, and evaluating a node on a
recursion cycle never returns. -/
theorem cyc_lemma (g : Graph) : ∀ fuel,
    (∀ v memo x memo', CycFree g memo →
      getLongest g fuel v memo = some (x, memo') → CycFree g memo') ∧
    (∀ v memo, CycFree g memo → Relation.TransGen (GStep g) v v →
      getLongest g fuel v memo = none) := by
  intro fuel
  induction fuel with
  | zero =>
    exact ⟨fun v memo x memo' _ h => absurd h (by simp [getLongest]),
           fun v memo _ _ => rfl⟩
  | succ n ih =>
    have gPres : ∀ (l : List (Nat × ℚ)) best memo x memo', CycFree g memo →
        goEdges (getLongest g n) l best memo = some (x, memo') →
        CycFree g memo' := by
      intro l
      induction l with
      | nil =>
        intro best memo x memo' hc h
        simp only [goEdges] at h
        have h2 : memo = memo' := congrArg Prod.snd (Option.some.inj h)
        exact h2 ▸ hc
      | cons e rest ihl =>
        intro best memo x memo' hc h
        obtain ⟨u, w0⟩ := e
        simp only [goEdges] at h
        cases hf : getLongest g n u memo with
        | none => rw [hf] at h; exact absurd h (by simp)
        | some pr =>
          obtain ⟨xu, memo1⟩ := pr
          rw [hf] at h
          exact ihl _ _ _ _ (ih.1 u memo xu memo1 hc hf) h
    have gFail : ∀ (l : List (Nat × ℚ)) best memo, CycFree g memo →
        (∃ p w, (p, w) ∈ l ∧ Relation.TransGen (GStep g) p p) →
        goEdges (getLongest g n) l best memo = none := by
      intro l
      induction l with
      | nil =>
        rintro best memo hc ⟨p, w, hmem, -⟩
        simp at hmem
      | cons e rest ihl =>
        intro best memo hc hex
        obtain ⟨u, w0⟩ := e
        obtain ⟨p, w, hmem, hcyc⟩ := hex
        simp only [goEdges]
        rcases List.mem_cons.mp hmem with heq | hmem'
        · injection heq with h1 h2
          subst h1
          rw [ih.2 p memo hc hcyc]
        · cases hf : getLongest g n u memo with
          | none => rfl
          | some pr =>
            obtain ⟨xu, memo1⟩ := pr
            exact ihl _ _ (ih.1 u memo xu memo1 hc hf) ⟨p, w, hmem', hcyc⟩
    have part2 : ∀ v memo, CycFree g memo →
        Relation.TransGen (GStep g) v v → getLongest g (n + 1) v memo = none := by
      intro v memo hc hcyc
      have hv : nlook v memo = none := hc v hcyc
      obtain ⟨p, hstep, hpath⟩ := (Relation.TransGen.head'_iff).mp hcyc
      obtain ⟨w, hw⟩ := hstep
      have hpcyc : Relation.TransGen (GStep g) p p :=
        Relation.TransGen.tail' hpath ⟨w, hw⟩
      simp only [getLongest, hv]
      rw [gFail (g v) 0 memo hc ⟨p, w, hw, hpcyc⟩]
    refine ⟨?_, part2⟩
    intro v memo x memo' hc h
    simp only [getLongest] at h
    cases hv : nlook v memo with
    | some y =>
      rw [hv] at h
      have h2 : memo = memo' := congrArg Prod.snd (Option.some.inj h)
      exact h2 ▸ hc
    | none =>
      rw [hv] at h
      cases hgo : goEdges (getLongest g n) (g v) 0 memo with
      | none => rw [hgo] at h; exact absurd h (by simp)
      | some pr =>
        obtain ⟨best, memo1⟩ := pr
        rw [hgo] at h
        obtain rfl : (v, best) :: memo1 = memo' := congrArg Prod.snd (Option.some.inj h)
        intro k hk
        by_cases hkv : k = v
        · subst hkv
          have hsucc : getLongest g (n + 1) k memo = some (best, (k, best) :: memo1) := by
            simp only [getLongest, hv, hgo]
          rw [part2 k memo hc hk] at hsucc
          exact absurd hsucc (by simp)
        · show nlook k ((v, best) :: memo1) = none
          rw [nlook, if_neg (fun hh => hkv hh.symm)]
          exact gPres _ _ _ _ _ hc hgo k hk

/-- Keys added by the edge loop are reachable (along stored edges) from
one of the loop's edge targets. -/
theorem goEdges_new_keys (g : Graph) (f : Nat → Memo → Option (ℚ × Memo))
    (Hf : ∀ u memo x memo', f u memo = some (x, memo') →
      ∀ k, nlook k memo = none → nlook k memo' ≠ none →
      Relation.ReflTransGen (GStep g) u k) :
    ∀ (l : List (Nat × ℚ)) best memo x memo',
      goEdges f l best memo = some (x, memo') →
      ∀ k, nlook k memo = none → nlook k memo' ≠ none →
      ∃ p w, (p, w) ∈ l ∧ Relation.ReflTransGen (GStep g) p k := by
  intro l
  induction l with
  | nil =>
    intro best memo x memo' h k hk hk'
    simp only [goEdges] at h
    have h2 : memo = memo' := congrArg Prod.snd (Option.some.inj h)
    exact absurd (h2 ▸ hk) hk'
  | cons e rest ih =>
    intro best memo x memo' h k hk hk'
    obtain ⟨u, w0⟩ := e
    simp only [goEdges] at h
    cases hf : f u memo with
    | none => rw [hf] at h; exact absurd h (by simp)
    | some pr =>
      obtain ⟨xu, memo1⟩ := pr
      rw [hf] at h
      by_cases h1 : nlook k memo1 = none
      · obtain ⟨p, w, hmem, hreach⟩ := ih _ _ _ _ h k h1 hk'
        exact ⟨p, w, List.mem_cons_of_mem _ hmem, hreach⟩
      · exact ⟨u, w0, List.mem_cons_self _ _, Hf u memo xu memo1 hf k hk h1⟩

/-- Keys added by an evaluation are reachable from the evaluated node. -/
theorem getLongest_new_keys (g : Graph) : ∀ fuel v memo x memo',
    getLongest g fuel v memo = some (x, memo') →
    ∀ k, nlook k memo = none → nlook k memo' ≠ none →
    Relation.ReflTransGen (GStep g) v k := by
  intro fuel
  induction fuel with
  | zero => intro v memo x memo' h; exact absurd h (by simp [getLongest])
  | succ n ih =>
    intro v memo x memo' h k hk hk'
    simp only [getLongest] at h
    cases hv : nlook v memo with
    | some y =>
      rw [hv] at h
      have h2 : memo = memo' := congrArg Prod.snd (Option.some.inj h)
      exact absurd (h2 ▸ hk) hk'
    | none =>
      rw [hv] at h
      cases hgo : goEdges (getLongest g n) (g v) 0 memo with
      | none => rw [hgo] at h; exact absurd h (by simp)
      | some pr =>
        obtain ⟨best, memo1⟩ := pr
        rw [hgo] at h
        obtain rfl : (v, best) :: memo1 = memo' := congrArg Prod.snd (Option.some.inj h)
        by_cases hkv : k = v
        · subst hkv; exact Relation.ReflTransGen.refl
        · have hk1 : nlook k memo1 ≠ none := by
            intro hnone
            apply hk'
            show nlook k ((v, best) :: memo1) = none
            rw [nlook, if_neg (fun hh => hkv hh.symm)]
            exact hnone
          obtain ⟨p, w, hmem, hreach⟩ := goEdges_new_keys g (getLongest g n) ih
            _ _ _ _ _ hgo k hk hk1
          exact Relation.ReflTransGen.head ⟨w, hmem⟩ hreach

/-- A successful evaluation from a cycle-free memo shows the node is not
on a recursion cycle. -/
theorem eval_not_cyclic (g : Graph) (fuel v : Nat) (memo : Memo) (x : ℚ)
    (memo' : Memo) (hc : CycFree g memo)
    (h : getLongest g fuel v memo = some (x, memo')) :
    ¬ Relation.TransGen (GStep g) v v := by
  intro hcyc
  rw [(cyc_lemma g fuel).2 v memo hc hcyc] at h
  exact absurd h (by simp)

/-- During the edge loop of a node that is not on a cycle, no entry for
the node itself can appear. -/
theorem memo1_no_self (g : Graph) (n v : Nat) (memo : Memo) (best : ℚ)
    (memo1 : Memo) (hv : nlook v memo = none)
    (hnot : ¬ Relation.TransGen (GStep g) v v)
    (hgo : goEdges (getLongest g n) (g v) 0 memo = some (best, memo1)) :
    nlook v memo1 = none := by
  by_contra hsome
  obtain ⟨p, w, hmem, hreach⟩ := goEdges_new_keys g (getLongest g n)
    (getLongest_new_keys g n) _ _ _ _ _ hgo v hv hsome
  exact hnot (Relation.TransGen.head' ⟨w, hmem⟩ hreach)

/-- The computed longest-path values form a sound and tight fixed point:
after a successful evaluation from a sound, cycle-free memo, the memo is
again sound, and the evaluated node's entry holds the returned
non-negative value. -/
theorem getLongest_sound (g : Graph) : ∀ fuel v memo x memo',
    CycFree g memo → Sound g memo →
    getLongest g fuel v memo = some (x, memo') →
    Sound g memo' ∧ nlook v memo' = some x ∧ 0 ≤ x := by
  intro fuel
  induction fuel with
  | zero => intro v memo x memo' _ _ h; exact absurd h (by simp [getLongest])
  | succ n ih =>
    have gSound : ∀ (l : List (Nat × ℚ)) best memo x memo', CycFree g memo →
        Sound g memo → 0 ≤ best →
        goEdges (getLongest g n) l best memo = some (x, memo') →
        Sound g memo' ∧ CycFree g memo' ∧ MemoExtends memo memo' ∧ 0 ≤ x ∧
        best ≤ x ∧
        (∀ p w, (p, w) ∈ l → ∃ z, nlook p memo' = some z ∧ z + w ≤ x) ∧
        (x = best ∨ ∃ p w, (p, w) ∈ l ∧ ∃ z, nlook p memo' = some z ∧ x = z + w) := by
      intro l
      induction l with
      | nil =>
        intro best memo x memo' hc hs hb h
        simp only [goEdges] at h
        obtain ⟨h1, h2⟩ : best = x ∧ memo = memo' :=
          ⟨congrArg Prod.fst (Option.some.inj h), congrArg Prod.snd (Option.some.inj h)⟩
        subst h1; subst h2
        exact ⟨hs, hc, fun k y hk => hk, hb, le_refl _, by simp, Or.inl rfl⟩
      | cons e rest ihl =>
        intro best memo x memo' hc hs hb h
        obtain ⟨u, w0⟩ := e
        simp only [goEdges] at h
        cases hf : getLongest g n u memo with
        | none => rw [hf] at h; exact absurd h (by simp)
        | some pr =>
          obtain ⟨xu, memo1⟩ := pr
          rw [hf] at h
          obtain ⟨hS1, hu1, hxu⟩ := ih u memo xu memo1 hc hs hf
          have hc1 : CycFree g memo1 := (cyc_lemma g n).1 u memo xu memo1 hc hf
          have hext1 : MemoExtends memo memo1 := getLongest_extends g n u memo xu memo1 hf
          have hbeq : qmax best (qadd xu w0) = max best (xu + w0) := by
            rw [qmax_eq, qadd_eq]
          have hb' : 0 ≤ qmax best (qadd xu w0) := by
            rw [hbeq]; exact le_trans hb (le_max_left _ _)
          obtain ⟨hS', hc', hext', hx0, hbx, hedges, htight⟩ :=
            ihl _ memo1 x memo' hc1 hS1 hb' h
          have hu' : nlook u memo' = some xu := hext' u xu hu1
          refine ⟨hS', hc', fun k y hk => hext' k y (hext1 k y hk), hx0, ?_, ?_, ?_⟩
          · calc best ≤ max best (xu + w0) := le_max_left _ _
              _ = qmax best (qadd xu w0) := hbeq.symm
              _ ≤ x := hbx
          · intro p w hpw
            rcases List.mem_cons.mp hpw with heq | hmem'
            · have hp : p = u := congrArg Prod.fst heq
              have hw : w = w0 := congrArg Prod.snd heq
              rw [hp, hw]
              refine ⟨xu, hu', ?_⟩
              calc xu + w0 ≤ max best (xu + w0) := le_max_right _ _
                _ = qmax best (qadd xu w0) := hbeq.symm
                _ ≤ x := hbx
            · exact hedges p w hmem'
          · rcases htight with hxb | ⟨p, w, hmem, z, hz, hxz⟩
            · rw [hbeq] at hxb
              rcases max_choice best (xu + w0) with hch | hch
              · rw [hch] at hxb
                exact Or.inl hxb
              · rw [hch] at hxb
                exact Or.inr ⟨u, w0, List.mem_cons_self _ _, xu, hu', hxb⟩
            · exact Or.inr ⟨p, w, List.mem_cons_of_mem _ hmem, z, hz, hxz⟩
    intro v memo x memo' hc hs h
    simp only [getLongest] at h
    cases hv : nlook v memo with
    | some y =>
      rw [hv] at h
      obtain ⟨h1, h2⟩ : y = x ∧ memo = memo' :=
        ⟨congrArg Prod.fst (Option.some.inj h), congrArg Prod.snd (Option.some.inj h)⟩
      subst h1; subst h2
      exact ⟨hs, hv, (hs v y hv).1⟩
    | none =>
      rw [hv] at h
      cases hgo : goEdges (getLongest g n) (g v) 0 memo with
      | none => rw [hgo] at h; exact absurd h (by simp)
      | some pr =>
        obtain ⟨best, memo1⟩ := pr
        rw [hgo] at h
        obtain ⟨h1, h2⟩ : best = x ∧ (v, best) :: memo1 = memo' :=
          ⟨congrArg Prod.fst (Option.some.inj h), congrArg Prod.snd (Option.some.inj h)⟩
        subst h1
        have hsucc : getLongest g (n + 1) v memo = some (best, (v, best) :: memo1) := by
          simp only [getLongest, hv, hgo]
        have hnot : ¬ Relation.TransGen (GStep g) v v :=
          eval_not_cyclic g (n + 1) v memo best ((v, best) :: memo1) hc hsucc
        have hnoself : nlook v memo1 = none :=
          memo1_no_self g n v memo best memo1 hv hnot hgo
        obtain ⟨hS1, hc1, hext1, hx0, -, hedges, htight⟩ :=
          gSound (g v) 0 memo best memo1 hc hs (le_refl 0) hgo
        subst h2
        have hkeep : ∀ p z, nlook p memo1 = some z →
            nlook p ((v, best) :: memo1) = some z := by
          intro p z hp
          have hpv : p ≠ v := fun hpv => by rw [hpv, hnoself] at hp; exact absurd hp (by simp)
          rw [nlook, if_neg (fun hh => hpv hh.symm)]
          exact hp
        refine ⟨?_, by simp [nlook], hx0⟩
        intro k y hk
        by_cases hkv : k = v
        · subst hkv
          have hy : y = best := by
            rw [nlook, if_pos rfl] at hk
            exact (Option.some.inj hk).symm
          subst hy
          refine ⟨hx0, ?_, ?_⟩
          · intro p w hpw
            obtain ⟨z, hz, hzw⟩ := hedges p w hpw
            exact ⟨z, hkeep p z hz, hzw⟩
          · rcases htight with hyb | ⟨p, w, hmem, z, hz, hxz⟩
            · exact Or.inl hyb
            · exact Or.inr ⟨p, w, hmem, z, hkeep p z hz, hxz⟩
        · have hk1 : nlook k memo1 = some y := by
            rw [nlook, if_neg (fun hh => hkv hh.symm)] at hk
            exact hk
          obtain ⟨hy0, hyedges, hytight⟩ := hS1 k y hk1
          refine ⟨hy0, ?_, ?_⟩
          · intro p w hpw
            obtain ⟨z, hz, hzw⟩ := hyedges p w hpw
            exact ⟨z, hkeep p z hz, hzw⟩
          · rcases hytight with hy | ⟨p, w, hmem, z, hz, hxz⟩
            · exact Or.inl hy
            · exact Or.inr ⟨p, w, hmem, z, hkeep p z hz, hxz⟩

/-- Any super-solution `P` of the longest-path inequalities bounds every
computed value. -/
theorem getLongest_le (g : Graph) (P : Nat → ℚ)
    (hP : ∀ v p w, (p, w) ∈ g v → P p + w ≤ P v) (hP0 : ∀ v, 0 ≤ P v) :
    ∀ fuel v memo x memo', BoundedBy P memo →
      getLongest g fuel v memo = some (x, memo') →
      x ≤ P v ∧ BoundedBy P memo' := by
  intro fuel
  induction fuel with
  | zero => intro v memo x memo' _ h; exact absurd h (by simp [getLongest])
  | succ n ih =>
    have gLe : ∀ (v : Nat) (l : List (Nat × ℚ)) best memo x memo',
        (∀ p w, (p, w) ∈ l → (p, w) ∈ g v) → best ≤ P v → BoundedBy P memo →
        goEdges (getLongest g n) l best memo = some (x, memo') →
        x ≤ P v ∧ BoundedBy P memo' := by
      intro v l
      induction l with
      | nil =>
        intro best memo x memo' _ hb hB h
        simp only [goEdges] at h
        obtain ⟨h1, h2⟩ : best = x ∧ memo = memo' :=
          ⟨congrArg Prod.fst (Option.some.inj h), congrArg Prod.snd (Option.some.inj h)⟩
        subst h1; subst h2
        exact ⟨hb, hB⟩
      | cons e rest ihl =>
        intro best memo x memo' hsub hb hB h
        obtain ⟨u, w0⟩ := e
        simp only [goEdges] at h
        cases hf : getLongest g n u memo with
        | none => rw [hf] at h; exact absurd h (by simp)
        | some pr =>
          obtain ⟨xu, memo1⟩ := pr
          rw [hf] at h
          obtain ⟨hxu, hB1⟩ := ih u memo xu memo1 hB hf
          have hbeq : qmax best (qadd xu w0) = max best (xu + w0) := by
            rw [qmax_eq, qadd_eq]
          have hb' : qmax best (qadd xu w0) ≤ P v := by
            rw [hbeq]
            refine max_le hb ?_
            calc xu + w0 ≤ P u + w0 := by linarith
              _ ≤ P v := hP v u w0 (hsub u w0 (List.mem_cons_self _ _))
          exact ihl _ memo1 x memo'
            (fun p w hm => hsub p w (List.mem_cons_of_mem _ hm)) hb' hB1 h
    intro v memo x memo' hB h
    simp only [getLongest] at h
    cases hv : nlook v memo with
    | some y =>
      rw [hv] at h
      obtain ⟨h1, h2⟩ : y = x ∧ memo = memo' :=
        ⟨congrArg Prod.fst (Option.some.inj h), congrArg Prod.snd (Option.some.inj h)⟩
      subst h1; subst h2
      exact ⟨hB v y hv, hB⟩
    | none =>
      rw [hv] at h
      cases hgo : goEdges (getLongest g n) (g v) 0 memo with
      | none => rw [hgo] at h; exact absurd h (by simp)
      | some pr =>
        obtain ⟨best, memo1⟩ := pr
        rw [hgo] at h
        obtain ⟨h1, h2⟩ : best = x ∧ (v, best) :: memo1 = memo' :=
          ⟨congrArg Prod.fst (Option.some.inj h), congrArg Prod.snd (Option.some.inj h)⟩
        subst h1
        obtain ⟨hx, hB1⟩ := gLe v (g v) 0 memo best memo1
          (fun p w hm => hm) (hP0 v) hB hgo
        subst h2
        refine ⟨hx, fun k y hk => ?_⟩
        by_cases hkv : k = v
        · subst hkv
          rw [nlook, if_pos rfl] at hk
          rw [← Option.some.inj hk]
          exact hx
        · rw [nlook, if_neg (fun hh => hkv hh.symm)] at hk
          exact hB1 k y hk

/-- Memo keys stay below the node bound. -/
theorem getLongest_keysLt (g : Graph) (N : Nat)
    (hg : ∀ v p w, (p, w) ∈ g v → p < N) :
    ∀ fuel v memo x memo', v < N → KeysLt N memo →
      getLongest g fuel v memo = some (x, memo') → KeysLt N memo' := by
  intro fuel
  induction fuel with
  | zero => intro v memo x memo' _ _ h; exact absurd h (by simp [getLongest])
  | succ n ih =>
    have gK : ∀ (l : List (Nat × ℚ)) best memo x memo',
        (∀ p w, (p, w) ∈ l → p < N) → KeysLt N memo →
        goEdges (getLongest g n) l best memo = some (x, memo') →
        KeysLt N memo' := by
      intro l
      induction l with
      | nil =>
        intro best memo x memo' _ hK h
        simp only [goEdges] at h
        have h2 : memo = memo' := congrArg Prod.snd (Option.some.inj h)
        exact h2 ▸ hK
      | cons e rest ihl =>
        intro best memo x memo' hlt hK h
        obtain ⟨u, w0⟩ := e
        simp only [goEdges] at h
        cases hf : getLongest g n u memo with
        | none => rw [hf] at h; exact absurd h (by simp)
        | some pr =>
          obtain ⟨xu, memo1⟩ := pr
          rw [hf] at h
          exact ihl _ _ _ _ (fun p w hm => hlt p w (List.mem_cons_of_mem _ hm))
            (ih u memo xu memo1 (hlt u w0 (List.mem_cons_self _ _)) hK hf) h
    intro v memo x memo' hv hK h
    simp only [getLongest] at h
    cases hvm : nlook v memo with
    | some y =>
      rw [hvm] at h
      have h2 : memo = memo' := congrArg Prod.snd (Option.some.inj h)
      exact h2 ▸ hK
    | none =>
      rw [hvm] at h
      cases hgo : goEdges (getLongest g n) (g v) 0 memo with
      | none => rw [hgo] at h; exact absurd h (by simp)
      | some pr =>
        obtain ⟨best, memo1⟩ := pr
        rw [hgo] at h
        obtain rfl : (v, best) :: memo1 = memo' := congrArg Prod.snd (Option.some.inj h)
        have hK1 : KeysLt N memo1 := gK (g v) 0 memo best memo1
          (fun p w hm => hg v p w hm) hK hgo
        intro k y hk
        by_cases hkv : k = v
        · subst hkv; exact hv
        · rw [nlook, if_neg (fun hh => hkv hh.symm)] at hk
          exact hK1 k y hk

/-! ## Lemmas about the per-node evaluation loop and `longest_path` -/

theorem forall2_mem_right {α β : Type} {R : α → β → Prop} :
    ∀ {as : List α} {bs : List β}, List.Forall₂ R as bs → ∀ b ∈ bs, ∃ a ∈ as, R a b := by
  intro as bs h
  induction h with
  | nil => intro b hb; simp at hb
  | cons hab _ ih =>
    intro b hb
    rcases List.mem_cons.mp hb with rfl | hb'
    · exact ⟨_, List.mem_cons_self _ _, hab⟩
    · obtain ⟨a, ha, har⟩ := ih b hb'
      exact ⟨a, List.mem_cons_of_mem _ ha, har⟩

theorem forall2_mem_left {α β : Type} {R : α → β → Prop} :
    ∀ {as : List α} {bs : List β}, List.Forall₂ R as bs → ∀ a ∈ as, ∃ b ∈ bs, R a b := by
  intro as bs h
  induction h with
  | nil => intro a ha; simp at ha
  | cons hab _ ih =>
    intro a ha
    rcases List.mem_cons.mp ha with rfl | ha'
    · exact ⟨_, List.mem_cons_self _ _, hab⟩
    · obtain ⟨b, hb, hbr⟩ := ih a ha'
      exact ⟨b, List.mem_cons_of_mem _ hb, hbr⟩

theorem foldl_qmax_le {B : ℚ} : ∀ (l : List ℚ) (a : ℚ), a ≤ B →
    (∀ x ∈ l, x ≤ B) → l.foldl qmax a ≤ B := by
  intro l
  induction l with
  | nil => intro a ha _; exact ha
  | cons x rest ih =>
    intro a ha hl
    simp only [List.foldl_cons]
    refine ih _ ?_ (fun y hy => hl y (List.mem_cons_of_mem _ hy))
    rw [qmax_eq]
    exact max_le ha (hl x (List.mem_cons_self _ _))

theorem le_foldl_qmax : ∀ (l : List ℚ) (a : ℚ), a ≤ l.foldl qmax a := by
  intro l
  induction l with
  | nil => intro a; exact le_refl a
  | cons x rest ih =>
    intro a
    simp only [List.foldl_cons]
    calc a ≤ qmax a x := by rw [qmax_eq]; exact le_max_left _ _
      _ ≤ rest.foldl qmax (qmax a x) := ih _

theorem mem_le_foldl_qmax : ∀ (l : List ℚ) (a x : ℚ), x ∈ l →
    x ≤ l.foldl qmax a := by
  intro l
  induction l with
  | nil => intro a x hx; simp at hx
  | cons y rest ih =>
    intro a x hx
    rcases List.mem_cons.mp hx with rfl | hx'
    · simp only [List.foldl_cons]
      calc x ≤ qmax a x := by rw [qmax_eq]; exact le_max_right _ _
        _ ≤ rest.foldl qmax (qmax a x) := le_foldl_qmax _ _
    · simp only [List.foldl_cons]
      exact ih _ x hx'

theorem mem_cons_le_foldl_qmax {x x0 : ℚ} {rest : List ℚ}
    (hx : x ∈ x0 :: rest) : x ≤ rest.foldl qmax x0 := by
  rcases List.mem_cons.mp hx with rfl | hx'
  · exact le_foldl_qmax _ _
  · exact mem_le_foldl_qmax _ _ _ hx'

/-- Evaluating a node list threads the memo: soundness and
cycle-freeness are preserved and each node ends with its value memoized. -/
theorem evalNodes_sound (g : Graph) (fuel : Nat) :
    ∀ (ns : List Nat) (memo : Memo) vals memoF, CycFree g memo → Sound g memo →
      evalNodes g fuel ns memo = some (vals, memoF) →
      Sound g memoF ∧ CycFree g memoF ∧ MemoExtends memo memoF ∧
        List.Forall₂ (fun v x => nlook v memoF = some x ∧ 0 ≤ x) ns vals := by
  intro ns
  induction ns with
  | nil =>
    intro memo vals memoF hc hs h
    simp only [evalNodes] at h
    obtain ⟨h1, h2⟩ : [] = vals ∧ memo = memoF :=
      ⟨congrArg Prod.fst (Option.some.inj h), congrArg Prod.snd (Option.some.inj h)⟩
    subst h1; subst h2
    exact ⟨hs, hc, fun k y hk => hk, List.Forall₂.nil⟩
  | cons v rest ih =>
    intro memo vals memoF hc hs h
    simp only [evalNodes] at h
    split at h
    · exact absurd h (by simp)
    · rename_i x memo1 hf
      split at h
      · exact absurd h (by simp)
      · rename_i xs memo2 hrest
        obtain ⟨h1, h2⟩ : x :: xs = vals ∧ memo2 = memoF :=
          ⟨congrArg Prod.fst (Option.some.inj h), congrArg Prod.snd (Option.some.inj h)⟩
        subst h1; subst h2
        obtain ⟨hS1, hv1, hx0⟩ := getLongest_sound g fuel v memo x memo1 hc hs hf
        have hc1 : CycFree g memo1 := (cyc_lemma g fuel).1 v memo x memo1 hc hf
        have hext1 : MemoExtends memo memo1 := getLongest_extends g fuel v memo x memo1 hf
        obtain ⟨hS2, hc2, hext2, hall⟩ := ih memo1 xs memo2 hc1 hS1 hrest
        exact ⟨hS2, hc2, fun k y hk => hext2 k y (hext1 k y hk),
          List.Forall₂.cons ⟨hext2 v x hv1, hx0⟩ hall⟩

/-- Bounded version of the evaluation loop. -/
theorem evalNodes_le (g : Graph) (P : Nat → ℚ)
    (hP : ∀ v p w, (p, w) ∈ g v → P p + w ≤ P v) (hP0 : ∀ v, 0 ≤ P v)
    (fuel : Nat) :
    ∀ (ns : List Nat) (memo : Memo) vals memoF, BoundedBy P memo →
      evalNodes g fuel ns memo = some (vals, memoF) →
      BoundedBy P memoF ∧ List.Forall₂ (fun v x => x ≤ P v) ns vals := by
  intro ns
  induction ns with
  | nil =>
    intro memo vals memoF hB h
    simp only [evalNodes] at h
    obtain ⟨h1, h2⟩ : [] = vals ∧ memo = memoF :=
      ⟨congrArg Prod.fst (Option.some.inj h), congrArg Prod.snd (Option.some.inj h)⟩
    subst h1; subst h2
    exact ⟨hB, List.Forall₂.nil⟩
  | cons v rest ih =>
    intro memo vals memoF hB h
    simp only [evalNodes] at h
    split at h
    · exact absurd h (by simp)
    · rename_i x memo1 hf
      split at h
      · exact absurd h (by simp)
      · rename_i xs memo2 hrest
        obtain ⟨h1, h2⟩ : x :: xs = vals ∧ memo2 = memoF :=
          ⟨congrArg Prod.fst (Option.some.inj h), congrArg Prod.snd (Option.some.inj h)⟩
        subst h1; subst h2
        obtain ⟨hx, hB1⟩ := getLongest_le g P hP hP0 fuel v memo x memo1 hB hf
        obtain ⟨hB2, hall⟩ := ih memo1 xs memo2 hB1 hrest
        exact ⟨hB2, List.Forall₂.cons hx hall⟩

/-- Key-bound version of the evaluation loop. -/
theorem evalNodes_keysLt (g : Graph) (N : Nat)
    (hg : ∀ v p w, (p, w) ∈ g v → p < N) (fuel : Nat) :
    ∀ (ns : List Nat) (memo : Memo) vals memoF, (∀ v ∈ ns, v < N) →
      KeysLt N memo → evalNodes g fuel ns memo = some (vals, memoF) →
      KeysLt N memoF := by
  intro ns
  induction ns with
  | nil =>
    intro memo vals memoF _ hK h
    simp only [evalNodes] at h
    have h2 : memo = memoF := congrArg Prod.snd (Option.some.inj h)
    exact h2 ▸ hK
  | cons v rest ih =>
    intro memo vals memoF hns hK h
    simp only [evalNodes] at h
    split at h
    · exact absurd h (by simp)
    · rename_i x memo1 hf
      split at h
      · exact absurd h (by simp)
      · rename_i xs memo2 hrest
        have h2 : memo2 = memoF := congrArg Prod.snd (Option.some.inj h)
        subst h2
        exact ih memo1 xs memo2 (fun u hu => hns u (List.mem_cons_of_mem _ hu))
          (getLongest_keysLt g N hg fuel v memo x memo1
            (hns v (List.mem_cons_self _ _)) hK hf) hrest

/-- Facts about one `longest_path` run: the final memo is sound,
cycle-free, and covers every requested node with a non-negative value
bounded by the returned critical length. -/
theorem run_facts (g : Graph) (ns : List Nat) (fuel : Nat) (L : ℚ)
    (memoF : Memo) (h : longestPathRun g ns fuel = some (L, memoF)) :
    Sound g memoF ∧ CycFree g memoF ∧
      (∀ v ∈ ns, ∃ x, nlook v memoF = some x ∧ 0 ≤ x ∧ x ≤ L) := by
  unfold longestPathRun at h
  cases hev : evalNodes g fuel ns [] with
  | none => rw [hev] at h; exact absurd h (by simp)
  | some pr =>
    obtain ⟨vals, memo2⟩ := pr
    rw [hev] at h
    cases vals with
    | nil => exact absurd h (by simp)
    | cons x0 rest =>
      obtain ⟨h1, h2⟩ : rest.foldl qmax x0 = L ∧ memo2 = memoF :=
        ⟨congrArg Prod.fst (Option.some.inj h), congrArg Prod.snd (Option.some.inj h)⟩
      subst h2
      obtain ⟨hS, hc, -, hall⟩ := evalNodes_sound g fuel ns [] (x0 :: rest) memo2
        (fun k _ => rfl) (fun k y hk => absurd hk (by simp [nlook])) hev
      refine ⟨hS, hc, fun v hv => ?_⟩
      obtain ⟨x, hxmem, hnl, hx0⟩ := forall2_mem_left hall v hv
      exact ⟨x, hnl, hx0, h1 ▸ mem_cons_le_foldl_qmax hxmem⟩

/-- A super-solution bounded on the requested nodes bounds the returned
critical length. -/
theorem run_le (g : Graph) (P : Nat → ℚ)
    (hP : ∀ v p w, (p, w) ∈ g v → P p + w ≤ P v) (hP0 : ∀ v, 0 ≤ P v)
    (ns : List Nat) (fuel : Nat) (L : ℚ) (memoF : Memo) (B : ℚ)
    (hB : ∀ v ∈ ns, P v ≤ B)
    (h : longestPathRun g ns fuel = some (L, memoF)) : L ≤ B := by
  unfold longestPathRun at h
  cases hev : evalNodes g fuel ns [] with
  | none => rw [hev] at h; exact absurd h (by simp)
  | some pr =>
    obtain ⟨vals, memo2⟩ := pr
    rw [hev] at h
    cases vals with
    | nil => exact absurd h (by simp)
    | cons x0 rest =>
      have h1 : rest.foldl qmax x0 = L := congrArg Prod.fst (Option.some.inj h)
      obtain ⟨-, hall⟩ := evalNodes_le g P hP hP0 fuel ns [] (x0 :: rest) memo2
        (fun k y hk => absurd hk (by simp [nlook])) hev
      have hbound : ∀ x ∈ x0 :: rest, x ≤ B := by
        intro x hx
        obtain ⟨v, hv, hxP⟩ := forall2_mem_right hall x hx
        exact le_trans hxP (hB v hv)
      rw [← h1]
      exact foldl_qmax_le _ _ (hbound x0 (List.mem_cons_self _ _))
        (fun x hx => hbound x (List.mem_cons_of_mem _ hx))

/-- Keys of the final memo of a run lie below the node bound. -/
theorem run_keysLt (g : Graph) (N : Nat)
    (hg : ∀ v p w, (p, w) ∈ g v → p < N) (ns : List Nat) (fuel : Nat)
    (L : ℚ) (memoF : Memo) (hns : ∀ v ∈ ns, v < N)
    (h : longestPathRun g ns fuel = some (L, memoF)) : KeysLt N memoF := by
  unfold longestPathRun at h
  cases hev : evalNodes g fuel ns [] with
  | none => rw [hev] at h; exact absurd h (by simp)
  | some pr =>
    obtain ⟨vals, memo2⟩ := pr
    rw [hev] at h
    cases vals with
    | nil => exact absurd h (by simp)
    | cons x0 rest =>
      have h2 : memo2 = memoF := congrArg Prod.snd (Option.some.inj h)
      subst h2
      exact evalNodes_keysLt g N hg fuel ns [] (x0 :: rest) memo2 hns
        (fun k y hk => absurd hk (by simp [nlook])) hev

/-! ## Association-list helpers for the collective-node state -/

theorem nlook_cnAppend (cns : List (Nat × List Ident)) (c : Nat) (n : Ident)
    (c' : Nat) :
    nlook c' (cnAppend cns c n) =
      if c' = c then (nlook c cns).map (fun l => l ++ [n]) else nlook c' cns := by
  induction cns with
  | nil => by_cases h : c' = c <;> simp [cnAppend, nlook, h]
  | cons p rest ih =>
    obtain ⟨k, l⟩ := p
    simp only [cnAppend]
    by_cases hkc : k = c
    · rw [if_pos hkc]
      by_cases hkc' : k = c'
      · have hc'c : c' = c := hkc'.symm.trans hkc
        rw [nlook, if_pos hkc', if_pos hc'c, nlook, if_pos hkc]
        rfl
      · have hc'c : ¬ c' = c := fun hh => hkc' (hkc.symm ▸ hh.symm ▸ rfl)
        rw [nlook, if_neg hkc', if_neg hc'c, nlook, if_neg hkc']
    · rw [if_neg hkc]
      by_cases hkc' : k = c'
      · have hc'c : ¬ c' = c := fun hh => hkc (hkc'.trans hh)
        rw [nlook, if_pos hkc', if_neg hc'c, nlook, if_pos hkc']
      · rw [nlook, if_neg hkc', ih]
        by_cases hcc : c' = c
        · rw [if_pos hcc, if_pos hcc, nlook, if_neg hkc]
        · rw [if_neg hcc, if_neg hcc, nlook, if_neg hkc']

theorem cnAppend_keys (cns : List (Nat × List Ident)) (c : Nat) (n : Ident) :
    (cnAppend cns c n).map Prod.fst = cns.map Prod.fst := by
  induction cns with
  | nil => rfl
  | cons p rest ih =>
    obtain ⟨k, l⟩ := p
    by_cases hkc : k = c <;> simp [cnAppend, hkc, ih]

theorem nlook_append {β : Type} (k : Nat) (l1 l2 : List (Nat × β)) :
    nlook k (l1 ++ l2) =
      match nlook k l1 with
      | some v => some v
      | none => nlook k l2 := by
  induction l1 with
  | nil => simp [nlook]
  | cons p rest ih =>
    obtain ⟨k', v⟩ := p
    by_cases h : k' = k <;> simp [nlook, h, ih]

theorem nlook_none_of_not_mem {β : Type} (k : Nat) (l : List (Nat × β))
    (h : k ∉ l.map Prod.fst) : nlook k l = none := by
  induction l with
  | nil => rfl
  | cons p rest ih =>
    obtain ⟨k', v⟩ := p
    simp only [List.map_cons, List.mem_cons] at h
    push_neg at h
    rw [nlook, if_neg (fun hh : k' = k => h.1 hh.symm)]
    exact ih h.2

theorem nlook_mem_of_some {β : Type} {k : Nat} {l : List (Nat × β)} {v : β}
    (h : nlook k l = some v) : k ∈ l.map Prod.fst := by
  induction l with
  | nil => simp [nlook] at h
  | cons p rest ih =>
    obtain ⟨k', v'⟩ := p
    by_cases hk : k' = k
    · simp [hk]
    · rw [nlook, if_neg hk] at h
      exact List.mem_cons_of_mem _ (ih h)

/-- Joining terminal `n` into an existing collective node `c`. -/
theorem join_inv (st : CState) (n : Ident) (c : Nat)
    (hc : ∃ m, alook m st.cnodeMap = some c)
    (hn : alook n st.cnodeMap = none ∨ alook n st.cnodeMap = some c)
    (hI : CInv st) :
    CInv { st with cnodeMap := (n, c) :: st.cnodeMap,
                   cnodes := cnAppend st.cnodes c n } ∧
    (∀ n' c', alook n' st.cnodeMap = some c' →
      alook n' ((n, c) :: st.cnodeMap) = some c') := by
  obtain ⟨hI1, hI2, hI3, hI4⟩ := hI
  obtain ⟨m, hm⟩ := hc
  have hmono : ∀ n' c', alook n' st.cnodeMap = some c' →
      alook n' ((n, c) :: st.cnodeMap) = some c' := by
    intro n' c' h'
    by_cases hnn : n = n'
    · subst hnn
      rcases hn with hno | hsome
      · rw [hno] at h'; exact absurd h' (by simp)
      · rw [hsome] at h'
        rw [alook, if_pos rfl, h']
    · rw [alook, if_neg hnn]
      exact h'
  refine ⟨⟨?_, ?_, ?_, ?_⟩, hmono⟩
  · intro n' c' h'
    by_cases hnn : n = n'
    · subst hnn
      rw [alook, if_pos rfl] at h'
      obtain rfl : c = c' := Option.some.inj h'
      exact hI1 m c hm
    · rw [alook, if_neg hnn] at h'
      exact hI1 n' c' h'
  · show (cnAppend st.cnodes c n).map Prod.fst = List.range' 1 st.cnode
    rw [cnAppend_keys]
    exact hI2
  · intro c' l hl n' hn'
    rw [nlook_cnAppend] at hl
    by_cases hcc : c' = c
    · subst hcc
      rw [if_pos rfl] at hl
      cases hcl : nlook c' st.cnodes with
      | none => rw [hcl] at hl; exact absurd hl (by simp)
      | some l0 =>
        rw [hcl] at hl
        obtain rfl : l0 ++ [n] = l := Option.some.inj hl
        rcases List.mem_append.mp hn' with hmem | hmem
        · exact hmono n' c' (hI3 c' l0 hcl n' hmem)
        · obtain rfl : n' = n := by simpa using hmem
          rw [alook, if_pos rfl]
    · rw [if_neg hcc] at hl
      exact hmono n' c' (hI3 c' l hl n' hn')
  · intro n' c' h'
    by_cases hnn : n = n'
    · subst hnn
      rw [alook, if_pos rfl] at h'
      obtain rfl : c = c' := Option.some.inj h'
      obtain ⟨l, hl, hml⟩ := hI4 m c hm
      refine ⟨l ++ [n], ?_, by simp⟩
      rw [nlook_cnAppend, if_pos rfl, hl]
      rfl
    · rw [alook, if_neg hnn] at h'
      obtain ⟨l, hl, hml⟩ := hI4 n' c' h'
      by_cases hcc : c' = c
      · subst hcc
        refine ⟨l ++ [n], ?_, by simp [hml]⟩
        rw [nlook_cnAppend, if_pos rfl, hl]
        rfl
      · exact ⟨l, by rw [nlook_cnAppend, if_neg hcc]; exact hl, hml⟩

/-- Allocating a fresh singleton collective node for terminal `n`. -/
theorem fresh_inv (st : CState) (n : Ident)
    (hn : alook n st.cnodeMap = none) (hI : CInv st) :
    CInv ⟨(n, st.cnode + 1) :: st.cnodeMap,
          st.cnodes ++ [(st.cnode + 1, [n])], st.cnode + 1⟩ ∧
    (∀ n' c', alook n' st.cnodeMap = some c' →
      alook n' ((n, st.cnode + 1) :: st.cnodeMap) = some c') := by
  obtain ⟨hI1, hI2, hI3, hI4⟩ := hI
  have hfresh : nlook (st.cnode + 1) st.cnodes = none := by
    refine nlook_none_of_not_mem _ _ ?_
    rw [hI2]
    intro hmem
    have := (List.mem_range'_1).mp hmem
    omega
  have hmono : ∀ n' c', alook n' st.cnodeMap = some c' →
      alook n' ((n, st.cnode + 1) :: st.cnodeMap) = some c' := by
    intro n' c' h'
    by_cases hnn : n = n'
    · subst hnn; rw [hn] at h'; exact absurd h' (by simp)
    · rw [alook, if_neg hnn]; exact h'
  refine ⟨⟨?_, ?_, ?_, ?_⟩, hmono⟩
  · intro n' c' h'
    show 1 ≤ c' ∧ c' ≤ st.cnode + 1
    by_cases hnn : n = n'
    · subst hnn
      rw [alook, if_pos rfl] at h'
      obtain rfl : st.cnode + 1 = c' := Option.some.inj h'
      omega
    · rw [alook, if_neg hnn] at h'
      have := hI1 n' c' h'
      omega
  · show (st.cnodes ++ [(st.cnode + 1, [n])]).map Prod.fst = List.range' 1 (st.cnode + 1)
    rw [List.map_append, hI2]
    simp [List.range'_concat, Nat.add_comm]
  · intro c' l hl n' hn'
    rw [nlook_append] at hl
    cases hcl : nlook c' st.cnodes with
    | some l0 =>
      rw [hcl] at hl
      obtain rfl : l0 = l := Option.some.inj hl
      exact hmono n' c' (hI3 c' l0 hcl n' hn')
    | none =>
      rw [hcl] at hl
      rw [nlook] at hl
      by_cases hcc : st.cnode + 1 = c'
      · rw [if_pos hcc] at hl
        obtain rfl : [n] = l := Option.some.inj hl
        obtain rfl : n' = n := by simpa using hn'
        subst hcc
        rw [alook, if_pos rfl]
      · rw [if_neg hcc] at hl
        rw [nlook] at hl
        exact absurd hl (by simp)
  · intro n' c' h'
    by_cases hnn : n = n'
    · subst hnn
      rw [alook, if_pos rfl] at h'
      obtain rfl : st.cnode + 1 = c' := Option.some.inj h'
      refine ⟨[n], ?_, by simp⟩
      rw [nlook_append, hfresh]
      rw [nlook, if_pos rfl]
    · rw [alook, if_neg hnn] at h'
      obtain ⟨l, hl, hml⟩ := hI4 n' c' h'
      refine ⟨l, ?_, hml⟩
      rw [nlook_append, hl]

theorem cnAppend_append_fresh (cns : List (Nat × List Ident)) (c : Nat)
    (l : List Ident) (n : Ident) (h : c ∉ cns.map Prod.fst) :
    cnAppend (cns ++ [(c, l)]) c n = cns ++ [(c, l ++ [n])] := by
  induction cns with
  | nil => simp [cnAppend]
  | cons p rest ih =>
    obtain ⟨k, l'⟩ := p
    simp only [List.map_cons, List.mem_cons] at h
    push_neg at h
    calc cnAppend (((k, l') :: rest) ++ [(c, l)]) c n
        = (k, l') :: cnAppend (rest ++ [(c, l)]) c n := by
          rw [List.cons_append, cnAppend, if_neg (fun hh : k = c => h.1 hh.symm)]
      _ = (k, l') :: (rest ++ [(c, l ++ [n])]) := by rw [ih h.2]
      _ = ((k, l') :: rest) ++ [(c, l ++ [n])] := by rw [List.cons_append]

theorem CInv_empty : CInv ⟨[], [], 0⟩ := by
  refine ⟨?_, rfl, ?_, ?_⟩
  · intro n c h; exact absurd h (by simp [alook])
  · intro c l h; exact absurd h (by simp [nlook])
  · intro n c h; exact absurd h (by simp [alook])

/-- One step of the orthogonal-unification loop preserves the invariant,
never shrinks the allocation counter and keeps existing assignments. -/
theorem unifyStep_inv (dirs : Ident × Ident) (st : CState) (e : Elt)
    (st' : CState) (h : unifyStep dirs st e = .ok st') (hI : CInv st) :
    CInv st' ∧ st.cnode ≤ st'.cnode ∧
    (∀ n c, alook n st.cnodeMap = some c → alook n st'.cnodeMap = some c) := by
  unfold unifyStep at h
  by_cases hd : e.dir = dirs.1 ∨ e.dir = dirs.2
  · rw [if_pos hd] at h
    obtain rfl : st = st' := Except.ok.inj h
    exact ⟨hI, le_refl _, fun n c hc => hc⟩
  · rw [if_neg hd] at h
    split at h
    · rename_i c1 c2 h1 h2
      by_cases hcc : c1 ≠ c2
      · rw [if_pos hcc] at h; exact absurd h (by simp)
      · rw [if_neg hcc] at h
        obtain rfl := Except.ok.inj h
        push_neg at hcc
        obtain ⟨hJ, hmono⟩ := join_inv st e.n2 c1 ⟨e.n1, h1⟩
          (Or.inr (hcc ▸ h2)) hI
        exact ⟨hJ, le_refl _, hmono⟩
    · rename_i h1 h2
      obtain rfl := Except.ok.inj h
      obtain ⟨hF, hmonoF⟩ := fresh_inv st e.n1 h1 hI
      have hcfresh : (st.cnode + 1) ∉ st.cnodes.map Prod.fst := by
        rw [hI.2.1]
        intro hmem
        have := (List.mem_range'_1).mp hmem
        omega
      have hn1look : alook e.n1 ((e.n1, st.cnode + 1) :: st.cnodeMap) =
          some (st.cnode + 1) := by rw [alook, if_pos rfl]
      have hn2look : alook e.n2 ((e.n1, st.cnode + 1) :: st.cnodeMap) = none ∨
          alook e.n2 ((e.n1, st.cnode + 1) :: st.cnodeMap) = some (st.cnode + 1) := by
        by_cases hee : e.n1 = e.n2
        · right; rw [alook, if_pos hee]
        · left; rw [alook, if_neg hee]; exact h2
      obtain ⟨hJ, hmonoJ⟩ := join_inv
        (⟨(e.n1, st.cnode + 1) :: st.cnodeMap,
          st.cnodes ++ [(st.cnode + 1, [e.n1])], st.cnode + 1⟩ : CState)
        e.n2 (st.cnode + 1) ⟨e.n1, hn1look⟩ hn2look hF
      rw [cnAppend_append_fresh st.cnodes (st.cnode + 1) [e.n1] e.n2 hcfresh] at hJ
      refine ⟨hJ, Nat.le_succ _, ?_⟩
      intro n c hc
      exact hmonoJ n c (hmonoF n c hc)
    · rename_i c2 h1 h2
      obtain rfl := Except.ok.inj h
      obtain ⟨hJ, hmono⟩ := join_inv st e.n1 c2 ⟨e.n2, h2⟩ (Or.inl h1) hI
      exact ⟨hJ, le_refl _, hmono⟩
    · rename_i c1 h1 h2
      obtain rfl := Except.ok.inj h
      obtain ⟨hJ, hmono⟩ := join_inv st e.n2 c1 ⟨e.n1, h1⟩ (Or.inl h2) hI
      exact ⟨hJ, le_refl _, hmono⟩

/-- One step of the augmentation loop preserves the invariant. -/
theorem augmentStep_inv (dirs : Ident × Ident) (st : CState) (e : Elt)
    (hI : CInv st) :
    CInv (augmentStep dirs st e) ∧ st.cnode ≤ (augmentStep dirs st e).cnode ∧
    (∀ n c, alook n st.cnodeMap = some c →
      alook n (augmentStep dirs st e).cnodeMap = some c) := by
  unfold augmentStep
  by_cases hd : e.dir = dirs.1 ∨ e.dir = dirs.2
  · rw [if_pos hd]
    by_cases h1 : alook e.n1 st.cnodeMap = none
    · rw [show (alook e.n1 st.cnodeMap).isNone = true by rw [h1]; rfl]
      simp only [if_true]
      obtain ⟨hF1, hmono1⟩ := fresh_inv st e.n1 h1 hI
      by_cases h2 : alook e.n2 ((e.n1, st.cnode + 1) :: st.cnodeMap) = none
      · rw [show (alook e.n2 ((⟨(e.n1, st.cnode + 1) :: st.cnodeMap,
            st.cnodes ++ [(st.cnode + 1, [e.n1])], st.cnode + 1⟩ : CState)).cnodeMap).isNone
            = true by rw [show (( ⟨(e.n1, st.cnode + 1) :: st.cnodeMap,
              st.cnodes ++ [(st.cnode + 1, [e.n1])], st.cnode + 1⟩ : CState)).cnodeMap
              = (e.n1, st.cnode + 1) :: st.cnodeMap from rfl, h2]; rfl]
        simp only [if_true]
        obtain ⟨hF2, hmono2⟩ := fresh_inv
          (⟨(e.n1, st.cnode + 1) :: st.cnodeMap,
            st.cnodes ++ [(st.cnode + 1, [e.n1])], st.cnode + 1⟩ : CState) e.n2 h2 hF1
        exact ⟨hF2, Nat.le_succ_of_le (Nat.le_succ _),
          fun n c hc => hmono2 n c (hmono1 n c hc)⟩
      · rw [show (alook e.n2 ((⟨(e.n1, st.cnode + 1) :: st.cnodeMap,
            st.cnodes ++ [(st.cnode + 1, [e.n1])], st.cnode + 1⟩ : CState)).cnodeMap).isNone
            = false by
              cases hx : alook e.n2 ((e.n1, st.cnode + 1) :: st.cnodeMap) with
              | none => exact absurd hx h2
              | some c => rfl]
        simp only [Bool.false_eq_true, if_false]
        exact ⟨hF1, Nat.le_succ _, hmono1⟩
    · rw [show (alook e.n1 st.cnodeMap).isNone = false by
        cases hx : alook e.n1 st.cnodeMap with
        | none => exact absurd hx h1
        | some c => rfl]
      simp only [Bool.false_eq_true, if_false]
      by_cases h2 : alook e.n2 st.cnodeMap = none
      · rw [show (alook e.n2 st.cnodeMap).isNone = true by rw [h2]; rfl]
        simp only [if_true]
        obtain ⟨hF2, hmono2⟩ := fresh_inv st e.n2 h2 hI
        exact ⟨hF2, Nat.le_succ _, hmono2⟩
      · rw [show (alook e.n2 st.cnodeMap).isNone = false by
          cases hx : alook e.n2 st.cnodeMap with
          | none => exact absurd hx h2
          | some c => rfl]
        simp only [Bool.false_eq_true, if_false]
        exact ⟨hI, le_refl _, fun n c hc => hc⟩
  · rw [if_neg hd]
    exact ⟨hI, le_refl _, fun n c hc => hc⟩

/-- The orthogonal-unification fold preserves the invariant. -/
theorem unifyFoldAux_inv (dirs : Ident × Ident) :
    ∀ (es : List Elt) (st st' : CState), CInv st →
      es.foldlM (unifyStep dirs) st = .ok st' →
      CInv st' ∧ st.cnode ≤ st'.cnode ∧
      (∀ n c, alook n st.cnodeMap = some c → alook n st'.cnodeMap = some c) := by
  intro es
  induction es with
  | nil =>
    intro st st' hI h
    obtain rfl : st = st' := Except.ok.inj h
    exact ⟨hI, le_refl _, fun n c hc => hc⟩
  | cons e rest ih =>
    intro st st' hI h
    rw [List.foldlM_cons] at h
    cases hstep : unifyStep dirs st e with
    | error msg => rw [hstep] at h; exact absurd h (by simp [Bind.bind, Except.bind])
    | ok st1 =>
      rw [hstep] at h
      have h' : rest.foldlM (unifyStep dirs) st1 = .ok st' := h
      obtain ⟨hI1, hc1, hm1⟩ := unifyStep_inv dirs st e st1 hstep hI
      obtain ⟨hI2, hc2, hm2⟩ := ih st1 st' hI1 h'
      exact ⟨hI2, le_trans hc1 hc2, fun n c hc => hm2 n c (hm1 n c hc)⟩

/-- The augmentation fold preserves the invariant. -/
theorem augmentFoldAux_inv (dirs : Ident × Ident) :
    ∀ (es : List Elt) (st : CState), CInv st →
      CInv (augmentFold dirs st es) ∧ st.cnode ≤ (augmentFold dirs st es).cnode ∧
      (∀ n c, alook n st.cnodeMap = some c →
        alook n (augmentFold dirs st es).cnodeMap = some c) := by
  intro es
  induction es with
  | nil =>
    intro st hI
    exact ⟨hI, le_refl _, fun n c hc => hc⟩
  | cons e rest ih =>
    intro st hI
    have hfold : augmentFold dirs st (e :: rest) =
        augmentFold dirs (augmentStep dirs st e) rest := by
      unfold augmentFold
      rw [List.foldl_cons]
    rw [hfold]
    obtain ⟨hI1, hc1, hm1⟩ := augmentStep_inv dirs st e hI
    obtain ⟨hI2, hc2, hm2⟩ := ih (augmentStep dirs st e) hI1
    exact ⟨hI2, le_trans hc1 hc2, fun n c hc => hm2 n c (hm1 n c hc)⟩

/-- An orthogonal element's two terminals are mapped right after its own
unification step. -/
theorem unifyStep_covers (dirs : Ident × Ident) (st : CState) (e : Elt)
    (st' : CState) (h : unifyStep dirs st e = .ok st')
    (hd : ¬(e.dir = dirs.1 ∨ e.dir = dirs.2)) :
    (∃ c, alook e.n1 st'.cnodeMap = some c) ∧
    (∃ c, alook e.n2 st'.cnodeMap = some c) := by
  unfold unifyStep at h
  rw [if_neg hd] at h
  split at h
  · rename_i c1 c2 h1 h2
    by_cases hcc : c1 ≠ c2
    · rw [if_pos hcc] at h; exact absurd h (by simp)
    · rw [if_neg hcc] at h
      obtain rfl := Except.ok.inj h
      constructor
      · by_cases hee : e.n2 = e.n1
        · exact ⟨c1, by rw [alook, if_pos hee]⟩
        · exact ⟨c1, by rw [alook, if_neg hee]; exact h1⟩
      · exact ⟨c1, by rw [alook, if_pos rfl]⟩
  · rename_i h1 h2
    obtain rfl := Except.ok.inj h
    constructor
    · by_cases hee : e.n2 = e.n1
      · exact ⟨st.cnode + 1, by rw [alook, if_pos hee]⟩
      · exact ⟨st.cnode + 1, by rw [alook, if_neg hee, alook, if_pos rfl]⟩
    · exact ⟨st.cnode + 1, by rw [alook, if_pos rfl]⟩
  · rename_i c2 h1 h2
    obtain rfl := Except.ok.inj h
    constructor
    · exact ⟨c2, by rw [alook, if_pos rfl]⟩
    · by_cases hee : e.n1 = e.n2
      · exact ⟨c2, by rw [alook, if_pos hee]⟩
      · exact ⟨c2, by rw [alook, if_neg hee]; exact h2⟩
  · rename_i c1 h1 h2
    obtain rfl := Except.ok.inj h
    constructor
    · by_cases hee : e.n2 = e.n1
      · exact ⟨c1, by rw [alook, if_pos hee]⟩
      · exact ⟨c1, by rw [alook, if_neg hee]; exact h1⟩
    · exact ⟨c1, by rw [alook, if_pos rfl]⟩

/-- Every orthogonal element of the list is covered by the unification
fold. -/
theorem unifyFold_covers (dirs : Ident × Ident) :
    ∀ (es : List Elt) (st st' : CState), CInv st →
      es.foldlM (unifyStep dirs) st = .ok st' →
      ∀ e ∈ es, ¬(e.dir = dirs.1 ∨ e.dir = dirs.2) →
      (∃ c, alook e.n1 st'.cnodeMap = some c) ∧
      (∃ c, alook e.n2 st'.cnodeMap = some c) := by
  intro es
  induction es with
  | nil => intro st st' _ _ e he; simp at he
  | cons e0 rest ih =>
    intro st st' hI h e he hd
    rw [List.foldlM_cons] at h
    cases hstep : unifyStep dirs st e0 with
    | error msg => rw [hstep] at h; exact absurd h (by simp [Bind.bind, Except.bind])
    | ok st1 =>
      rw [hstep] at h
      have h' : rest.foldlM (unifyStep dirs) st1 = .ok st' := h
      obtain ⟨hI1, -, -⟩ := unifyStep_inv dirs st e0 st1 hstep hI
      rcases List.mem_cons.mp he with rfl | he'
      · obtain ⟨⟨ca, hca⟩, ⟨cb, hcb⟩⟩ := unifyStep_covers dirs st e st1 hstep hd
        obtain ⟨-, -, hm⟩ := unifyFoldAux_inv dirs rest st1 st' hI1 h'
        exact ⟨⟨ca, hm _ _ hca⟩, ⟨cb, hm _ _ hcb⟩⟩
      · exact ih st1 st' hI1 h' e he' hd

/-- An axis-aligned element's two terminals are mapped right after its
own augmentation step. -/
theorem augmentStep_covers (dirs : Ident × Ident) (st : CState) (e : Elt)
    (hd : e.dir = dirs.1 ∨ e.dir = dirs.2) :
    (∃ c, alook e.n1 (augmentStep dirs st e).cnodeMap = some c) ∧
    (∃ c, alook e.n2 (augmentStep dirs st e).cnodeMap = some c) := by
  unfold augmentStep
  rw [if_pos hd]
  by_cases h1 : alook e.n1 st.cnodeMap = none
  · rw [show (alook e.n1 st.cnodeMap).isNone = true by rw [h1]; rfl]
    simp only [if_true]
    by_cases h2 : alook e.n2 ((e.n1, st.cnode + 1) :: st.cnodeMap) = none
    · rw [show (alook e.n2 ((⟨(e.n1, st.cnode + 1) :: st.cnodeMap,
          st.cnodes ++ [(st.cnode + 1, [e.n1])], st.cnode + 1⟩ : CState)).cnodeMap).isNone
          = true by rw [show ((⟨(e.n1, st.cnode + 1) :: st.cnodeMap,
            st.cnodes ++ [(st.cnode + 1, [e.n1])], st.cnode + 1⟩ : CState)).cnodeMap
            = (e.n1, st.cnode + 1) :: st.cnodeMap from rfl, h2]; rfl]
      simp only [if_true]
      constructor
      · by_cases hee : e.n2 = e.n1
        · exact ⟨st.cnode + 1 + 1, by rw [alook, if_pos hee]⟩
        · exact ⟨st.cnode + 1, by rw [alook, if_neg hee, alook, if_pos rfl]⟩
      · exact ⟨st.cnode + 1 + 1, by rw [alook, if_pos rfl]⟩
    · rw [show (alook e.n2 ((⟨(e.n1, st.cnode + 1) :: st.cnodeMap,
          st.cnodes ++ [(st.cnode + 1, [e.n1])], st.cnode + 1⟩ : CState)).cnodeMap).isNone
          = false by
            cases hx : alook e.n2 ((e.n1, st.cnode + 1) :: st.cnodeMap) with
            | none => exact absurd hx h2
            | some c => rfl]
      simp only [Bool.false_eq_true, if_false]
      refine ⟨⟨st.cnode + 1, by rw [alook, if_pos rfl]⟩, ?_⟩
      cases hx : alook e.n2 ((e.n1, st.cnode + 1) :: st.cnodeMap) with
      | none => exact absurd hx h2
      | some c => exact ⟨c, rfl⟩
  · rw [show (alook e.n1 st.cnodeMap).isNone = false by
      cases hx : alook e.n1 st.cnodeMap with
      | none => exact absurd hx h1
      | some c => rfl]
    simp only [Bool.false_eq_true, if_false]
    obtain ⟨c1, hc1⟩ : ∃ c, alook e.n1 st.cnodeMap = some c := by
      cases hx : alook e.n1 st.cnodeMap with
      | none => exact absurd hx h1
      | some c => exact ⟨c, rfl⟩
    by_cases h2 : alook e.n2 st.cnodeMap = none
    · rw [show (alook e.n2 st.cnodeMap).isNone = true by rw [h2]; rfl]
      simp only [if_true]
      constructor
      · by_cases hee : e.n2 = e.n1
        · exact ⟨st.cnode + 1, by rw [alook, if_pos hee]⟩
        · exact ⟨c1, by rw [alook, if_neg hee]; exact hc1⟩
      · exact ⟨st.cnode + 1, by rw [alook, if_pos rfl]⟩
    · rw [show (alook e.n2 st.cnodeMap).isNone = false by
        cases hx : alook e.n2 st.cnodeMap with
        | none => exact absurd hx h2
        | some c => rfl]
      simp only [Bool.false_eq_true, if_false]
      refine ⟨⟨c1, hc1⟩, ?_⟩
      cases hx : alook e.n2 st.cnodeMap with
      | none => exact absurd hx h2
      | some c => exact ⟨c, rfl⟩

/-- Every axis-aligned element of the list is covered by the
augmentation fold. -/
theorem augmentFold_covers (dirs : Ident × Ident) :
    ∀ (es : List Elt) (st : CState), CInv st →
      ∀ e ∈ es, (e.dir = dirs.1 ∨ e.dir = dirs.2) →
      (∃ c, alook e.n1 (augmentFold dirs st es).cnodeMap = some c) ∧
      (∃ c, alook e.n2 (augmentFold dirs st es).cnodeMap = some c) := by
  intro es
  induction es with
  | nil => intro st _ e he; simp at he
  | cons e0 rest ih =>
    intro st hI e he hd
    have hfold : augmentFold dirs st (e0 :: rest) =
        augmentFold dirs (augmentStep dirs st e0) rest := by
      unfold augmentFold
      rw [List.foldl_cons]
    rw [hfold]
    obtain ⟨hI1, -, -⟩ := augmentStep_inv dirs st e0 hI
    rcases List.mem_cons.mp he with rfl | he'
    · obtain ⟨⟨ca, hca⟩, ⟨cb, hcb⟩⟩ := augmentStep_covers dirs st e hd
      obtain ⟨-, -, hm⟩ := augmentFoldAux_inv dirs rest (augmentStep dirs st e) hI1
      exact ⟨⟨ca, hm _ _ hca⟩, ⟨cb, hm _ _ hcb⟩⟩
    · exact ih (augmentStep dirs st e0) hI1 e he' hd

/-- After both loops of `_make_graphs`, the collective-node state is
well-formed and covers every terminal of every element. -/
theorem stage_inv (dirs : Ident × Ident) (es : List Elt) (st0 : CState)
    (hu : unifyFold dirs es = .ok st0) :
    CInv (augmentFold dirs st0 es) ∧
    (∀ e ∈ es,
      (∃ c, alook e.n1 (augmentFold dirs st0 es).cnodeMap = some c) ∧
      (∃ c, alook e.n2 (augmentFold dirs st0 es).cnodeMap = some c)) := by
  have hI0 : CInv st0 := (unifyFoldAux_inv dirs es ⟨[], [], 0⟩ st0 CInv_empty hu).1
  refine ⟨(augmentFoldAux_inv dirs es st0 hI0).1, fun e he => ?_⟩
  by_cases hd : e.dir = dirs.1 ∨ e.dir = dirs.2
  · exact augmentFold_covers dirs es st0 hI0 e he hd
  · obtain ⟨⟨ca, hca⟩, ⟨cb, hcb⟩⟩ :=
      unifyFold_covers dirs es ⟨[], [], 0⟩ st0 CInv_empty hu e he hd
    obtain ⟨-, -, hm⟩ := augmentFoldAux_inv dirs es st0 hI0
    exact ⟨⟨ca, hm _ _ hca⟩, ⟨cb, hm _ _ hcb⟩⟩

/-! ## Edge-store lemmas -/

theorem addEdge_mem_iff (g : Graph) (v0 : Nat) (e : Nat × ℚ) (v : Nat)
    (p : Nat) (w : ℚ) :
    (p, w) ∈ addEdge g v0 e v ↔ (p, w) ∈ g v ∨ (v = v0 ∧ (p, w) = e) := by
  unfold addEdge
  by_cases hv : v = v0
  · subst hv; simp
  · simp [hv]

theorem graphStep_pres (dirs : Ident × Ident) (cmap : List (Ident × Nat))
    (gs : Graph × Graph) (e : Elt) :
    (∀ v p w, (p, w) ∈ gs.1 v → (p, w) ∈ (graphStep dirs cmap gs e).1 v) ∧
    (∀ v p w, (p, w) ∈ gs.2 v → (p, w) ∈ (graphStep dirs cmap gs e).2 v) := by
  simp only [graphStep]
  by_cases hd : e.dir = dirs.1 ∨ e.dir = dirs.2
  · rw [if_pos hd]
    by_cases hd1 : e.dir = dirs.1
    · rw [if_pos hd1]
      exact ⟨fun v p w hm => (addEdge_mem_iff _ _ _ _ _ _).mpr (Or.inl hm),
             fun v p w hm => (addEdge_mem_iff _ _ _ _ _ _).mpr (Or.inl hm)⟩
    · rw [if_neg hd1]
      exact ⟨fun v p w hm => (addEdge_mem_iff _ _ _ _ _ _).mpr (Or.inl hm),
             fun v p w hm => (addEdge_mem_iff _ _ _ _ _ _).mpr (Or.inl hm)⟩
  · rw [if_neg hd]
    exact ⟨fun v p w hm => hm, fun v p w hm => hm⟩

theorem foldl_graphStep_pres (dirs : Ident × Ident) (cmap : List (Ident × Nat)) :
    ∀ (es : List Elt) (gs : Graph × Graph),
      (∀ v p w, (p, w) ∈ gs.1 v →
        (p, w) ∈ (es.foldl (graphStep dirs cmap) gs).1 v) ∧
      (∀ v p w, (p, w) ∈ gs.2 v →
        (p, w) ∈ (es.foldl (graphStep dirs cmap) gs).2 v) := by
  intro es
  induction es with
  | nil => intro gs; exact ⟨fun v p w hm => hm, fun v p w hm => hm⟩
  | cons e0 rest ih =>
    intro gs
    simp only [List.foldl_cons]
    exact ⟨fun v p w hm => (ih _).1 v p w ((graphStep_pres dirs cmap gs e0).1 v p w hm),
           fun v p w hm => (ih _).2 v p w ((graphStep_pres dirs cmap gs e0).2 v p w hm)⟩

/-- Every axis-aligned element's edge is inserted into both edge stores. -/
theorem buildEdges_mem (dirs : Ident × Ident) (cmap : List (Ident × Nat)) :
    ∀ (es : List Elt) (gs : Graph × Graph) (e : Elt), e ∈ es →
      (e.dir = dirs.1 →
        ((alook e.n2 cmap).getD 0, e.size) ∈
          (es.foldl (graphStep dirs cmap) gs).1 ((alook e.n1 cmap).getD 0) ∧
        ((alook e.n1 cmap).getD 0, e.size) ∈
          (es.foldl (graphStep dirs cmap) gs).2 ((alook e.n2 cmap).getD 0)) ∧
      (e.dir ≠ dirs.1 → e.dir = dirs.2 →
        ((alook e.n1 cmap).getD 0, e.size) ∈
          (es.foldl (graphStep dirs cmap) gs).1 ((alook e.n2 cmap).getD 0) ∧
        ((alook e.n2 cmap).getD 0, e.size) ∈
          (es.foldl (graphStep dirs cmap) gs).2 ((alook e.n1 cmap).getD 0)) := by
  intro es
  induction es with
  | nil => intro gs e he; simp at he
  | cons e0 rest ih =>
    intro gs e he
    simp only [List.foldl_cons]
    rcases List.mem_cons.mp he with rfl | he'
    · constructor
      · intro hd1
        have hstep : (graphStep dirs cmap gs e).1 ((alook e.n1 cmap).getD 0) =
            addEdge gs.1 ((alook e.n1 cmap).getD 0)
              ((alook e.n2 cmap).getD 0, e.size) ((alook e.n1 cmap).getD 0) := by
          simp only [graphStep, if_pos (Or.inl hd1), if_pos hd1]
        constructor
        · refine (foldl_graphStep_pres dirs cmap rest _).1 _ _ _ ?_
          rw [hstep]
          exact (addEdge_mem_iff _ _ _ _ _ _).mpr (Or.inr ⟨rfl, rfl⟩)
        · refine (foldl_graphStep_pres dirs cmap rest _).2 _ _ _ ?_
          have hstep2 : (graphStep dirs cmap gs e).2 ((alook e.n2 cmap).getD 0) =
              addEdge gs.2 ((alook e.n2 cmap).getD 0)
                ((alook e.n1 cmap).getD 0, e.size) ((alook e.n2 cmap).getD 0) := by
            simp only [graphStep, if_pos (Or.inl hd1), if_pos hd1]
          rw [hstep2]
          exact (addEdge_mem_iff _ _ _ _ _ _).mpr (Or.inr ⟨rfl, rfl⟩)
      · intro hnd1 hd2
        constructor
        · refine (foldl_graphStep_pres dirs cmap rest _).1 _ _ _ ?_
          have hstep : (graphStep dirs cmap gs e).1 ((alook e.n2 cmap).getD 0) =
              addEdge gs.1 ((alook e.n2 cmap).getD 0)
                ((alook e.n1 cmap).getD 0, e.size) ((alook e.n2 cmap).getD 0) := by
            simp only [graphStep, if_pos (Or.inr hd2), if_neg hnd1]
          rw [hstep]
          exact (addEdge_mem_iff _ _ _ _ _ _).mpr (Or.inr ⟨rfl, rfl⟩)
        · refine (foldl_graphStep_pres dirs cmap rest _).2 _ _ _ ?_
          have hstep : (graphStep dirs cmap gs e).2 ((alook e.n1 cmap).getD 0) =
              addEdge gs.2 ((alook e.n1 cmap).getD 0)
                ((alook e.n2 cmap).getD 0, e.size) ((alook e.n1 cmap).getD 0) := by
            simp only [graphStep, if_pos (Or.inr hd2), if_neg hnd1]
          rw [hstep]
          exact (addEdge_mem_iff _ _ _ _ _ _).mpr (Or.inr ⟨rfl, rfl⟩)
    · exact ih (graphStep dirs cmap gs e0) e he'

/-- The built edge stores are mirror images with endpoints among the
allocated collective nodes. -/
theorem graphStep_paired (dirs : Ident × Ident) (cmap : List (Ident × Nat))
    (cnode : Nat) (gs : Graph × Graph) (e : Elt)
    (hb : ∀ n c, alook n cmap = some c → 1 ≤ c ∧ c ≤ cnode)
    (hcov : (e.dir = dirs.1 ∨ e.dir = dirs.2) →
      (∃ c, alook e.n1 cmap = some c) ∧ (∃ c, alook e.n2 cmap = some c))
    (hp : EdgePaired cnode gs.1 gs.2) :
    EdgePaired cnode (graphStep dirs cmap gs e).1 (graphStep dirs cmap gs e).2 := by
  by_cases hd : e.dir = dirs.1 ∨ e.dir = dirs.2
  · obtain ⟨⟨c1, hc1⟩, ⟨c2, hc2⟩⟩ := hcov hd
    have hm1 : (alook e.n1 cmap).getD 0 = c1 := by rw [hc1]; rfl
    have hm2 : (alook e.n2 cmap).getD 0 = c2 := by rw [hc2]; rfl
    have hb1 := hb e.n1 c1 hc1
    have hb2 := hb e.n2 c2 hc2
    by_cases hd1 : e.dir = dirs.1
    · have hstep : graphStep dirs cmap gs e =
          (addEdge gs.1 c1 (c2, e.size), addEdge gs.2 c2 (c1, e.size)) := by
        simp only [graphStep, if_pos hd, if_pos hd1, hm1, hm2]
      rw [hstep]
      constructor
      · intro v p w hm
        rcases (addEdge_mem_iff _ _ _ _ _ _).mp hm with hold | ⟨rfl, heq⟩
        · obtain ⟨ha, hb', hc', hd', hpair⟩ := hp.1 v p w hold
          exact ⟨ha, hb', hc', hd',
            (addEdge_mem_iff _ _ _ _ _ _).mpr (Or.inl hpair)⟩
        · have hpp : p = c2 := congrArg Prod.fst heq
          have hww : w = e.size := congrArg Prod.snd heq
          subst hpp; subst hww
          exact ⟨hb2.1, hb2.2, hb1.1, hb1.2,
            (addEdge_mem_iff _ _ _ _ _ _).mpr (Or.inr ⟨rfl, rfl⟩)⟩
      · intro v p w hm
        rcases (addEdge_mem_iff _ _ _ _ _ _).mp hm with hold | ⟨rfl, heq⟩
        · obtain ⟨ha, hb', hc', hd', hpair⟩ := hp.2 v p w hold
          exact ⟨ha, hb', hc', hd',
            (addEdge_mem_iff _ _ _ _ _ _).mpr (Or.inl hpair)⟩
        · have hpp : p = c1 := congrArg Prod.fst heq
          have hww : w = e.size := congrArg Prod.snd heq
          subst hpp; subst hww
          exact ⟨hb1.1, hb1.2, hb2.1, hb2.2,
            (addEdge_mem_iff _ _ _ _ _ _).mpr (Or.inr ⟨rfl, rfl⟩)⟩
    · have hstep : graphStep dirs cmap gs e =
          (addEdge gs.1 c2 (c1, e.size), addEdge gs.2 c1 (c2, e.size)) := by
        simp only [graphStep, if_pos hd, if_neg hd1, hm1, hm2]
      rw [hstep]
      constructor
      · intro v p w hm
        rcases (addEdge_mem_iff _ _ _ _ _ _).mp hm with hold | ⟨rfl, heq⟩
        · obtain ⟨ha, hb', hc', hd', hpair⟩ := hp.1 v p w hold
          exact ⟨ha, hb', hc', hd',
            (addEdge_mem_iff _ _ _ _ _ _).mpr (Or.inl hpair)⟩
        · have hpp : p = c1 := congrArg Prod.fst heq
          have hww : w = e.size := congrArg Prod.snd heq
          subst hpp; subst hww
          exact ⟨hb1.1, hb1.2, hb2.1, hb2.2,
            (addEdge_mem_iff _ _ _ _ _ _).mpr (Or.inr ⟨rfl, rfl⟩)⟩
      · intro v p w hm
        rcases (addEdge_mem_iff _ _ _ _ _ _).mp hm with hold | ⟨rfl, heq⟩
        · obtain ⟨ha, hb', hc', hd', hpair⟩ := hp.2 v p w hold
          exact ⟨ha, hb', hc', hd',
            (addEdge_mem_iff _ _ _ _ _ _).mpr (Or.inl hpair)⟩
        · have hpp : p = c2 := congrArg Prod.fst heq
          have hww : w = e.size := congrArg Prod.snd heq
          subst hpp; subst hww
          exact ⟨hb2.1, hb2.2, hb1.1, hb1.2,
            (addEdge_mem_iff _ _ _ _ _ _).mpr (Or.inr ⟨rfl, rfl⟩)⟩
  · have hstep : graphStep dirs cmap gs e = gs := by
      simp only [graphStep, if_neg hd]
    rw [hstep]
    exact hp

theorem buildEdges_paired (dirs : Ident × Ident) (cmap : List (Ident × Nat))
    (cnode : Nat)
    (hb : ∀ n c, alook n cmap = some c → 1 ≤ c ∧ c ≤ cnode) :
    ∀ (es : List Elt) (gs : Graph × Graph),
      (∀ e ∈ es, (e.dir = dirs.1 ∨ e.dir = dirs.2) →
        (∃ c, alook e.n1 cmap = some c) ∧ (∃ c, alook e.n2 cmap = some c)) →
      EdgePaired cnode gs.1 gs.2 →
      EdgePaired cnode (es.foldl (graphStep dirs cmap) gs).1
        (es.foldl (graphStep dirs cmap) gs).2 := by
  intro es
  induction es with
  | nil => intro gs _ hp; exact hp
  | cons e0 rest ih =>
    intro gs hcov hp
    simp only [List.foldl_cons]
    exact ih _ (fun e he hd => hcov e (List.mem_cons_of_mem _ he) hd)
      (graphStep_paired dirs cmap cnode gs e0 hb
        (hcov e0 (List.mem_cons_self _ _)) hp)

theorem emptyPair_paired (cnode : Nat) :
    EdgePaired cnode (fun _ => ([] : List (Nat × ℚ))) (fun _ => []) :=
  ⟨fun v p w hm => absurd hm (by simp), fun v p w hm => absurd hm (by simp)⟩

/-! ## finishGraphs lemmas -/

theorem finishGraphs_pos (cnode : Nat) (g rg : Graph) (v : Nat) (hv : v ≠ 0) :
    (finishGraphs cnode g rg).1 v = g v ∧ (finishGraphs cnode g rg).2 v = rg v :=
  ⟨if_neg hv, if_neg hv⟩

theorem finishGraphs_zero_mem (cnode : Nat) (g rg : Graph) (p : Nat) (w : ℚ) :
    ((p, w) ∈ (finishGraphs cnode g rg).1 0 ↔
      p ∈ List.range' 1 cnode ∧ rg p = [] ∧ w = 0) ∧
    ((p, w) ∈ (finishGraphs cnode g rg).2 0 ↔
      p ∈ List.range' 1 cnode ∧ g p = [] ∧ w = 0) := by
  constructor
  · constructor
    · intro hm
      simp only [finishGraphs, if_pos rfl] at hm
      obtain ⟨m, hml, hf⟩ := List.mem_filterMap.mp hm
      by_cases hrg : rg m = []
      · rw [if_pos hrg] at hf
        have hp : m = p := congrArg Prod.fst (Option.some.inj hf)
        have hw : (0 : ℚ) = w := congrArg Prod.snd (Option.some.inj hf)
        subst hp
        exact ⟨hml, hrg, hw.symm⟩
      · rw [if_neg hrg] at hf
        exact absurd hf (by simp)
    · rintro ⟨hmem, hrg, rfl⟩
      simp only [finishGraphs, if_pos rfl]
      exact List.mem_filterMap.mpr ⟨p, hmem, by rw [if_pos hrg]⟩
  · constructor
    · intro hm
      simp only [finishGraphs, if_pos rfl] at hm
      obtain ⟨m, hml, hf⟩ := List.mem_filterMap.mp hm
      by_cases hg : g m = []
      · rw [if_pos hg] at hf
        have hp : m = p := congrArg Prod.fst (Option.some.inj hf)
        have hw : (0 : ℚ) = w := congrArg Prod.snd (Option.some.inj hf)
        subst hp
        exact ⟨hml, hg, hw.symm⟩
      · rw [if_neg hg] at hf
        exact absurd hf (by simp)
    · rintro ⟨hmem, hg, rfl⟩
      simp only [finishGraphs, if_pos rfl]
      exact List.mem_filterMap.mpr ⟨p, hmem, by rw [if_pos hg]⟩

theorem finishGraphs_bounds (cnode : Nat) (g rg : Graph)
    (hp : EdgePaired cnode g rg) :
    (∀ v p w, (p, w) ∈ (finishGraphs cnode g rg).1 v → p < cnode + 1) ∧
    (∀ v p w, (p, w) ∈ (finishGraphs cnode g rg).2 v → p < cnode + 1) := by
  constructor
  · intro v p w hm
    by_cases hv : v = 0
    · subst hv
      have := ((finishGraphs_zero_mem cnode g rg p w).1).mp hm
      have hr := List.mem_range'.mp this.1
      omega
    · rw [(finishGraphs_pos cnode g rg v hv).1] at hm
      have := hp.1 v p w hm
      omega
  · intro v p w hm
    by_cases hv : v = 0
    · subst hv
      have := ((finishGraphs_zero_mem cnode g rg p w).2).mp hm
      have hr := List.mem_range'.mp this.1
      omega
    · rw [(finishGraphs_pos cnode g rg v hv).2] at hm
      have := hp.2 v p w hm
      omega

/-! ## buildPos lemmas -/

theorem foldl_append_bind {α β : Type} (h : α → List β) :
    ∀ (l : List α) (init : List β),
      l.foldl (fun acc c => acc ++ h c) init = init ++ l.flatMap h := by
  intro l
  induction l with
  | nil => intro init; simp
  | cons x xs ih =>
    intro init
    simp only [List.foldl_cons, List.flatMap_cons, ih, List.append_assoc]

theorem buildPos_eq_bind (cnode : Nat) (cnodes : List (Nat × List Ident))
    (len : ℚ) (memo memor : Memo) :
    buildPos cnode cnodes len memo memor =
      (List.range (cnode + 1)).flatMap (fun c =>
        if c = 0 then [] else
          ((nlook c cnodes).getD []).map (fun n =>
            (n, qhalf (qadd (qsub len ((nlook c memo).getD 0))
              ((nlook c memor).getD 0))))) := by
  unfold buildPos
  have hfun : (fun (acc : List (Ident × ℚ)) c =>
      if c = 0 then acc else
        acc ++ ((nlook c cnodes).getD []).map (fun n =>
          (n, qhalf (qadd (qsub len ((nlook c memo).getD 0))
            ((nlook c memor).getD 0))))) =
      (fun acc c => acc ++ (if c = 0 then [] else
        ((nlook c cnodes).getD []).map (fun n =>
          (n, qhalf (qadd (qsub len ((nlook c memo).getD 0))
            ((nlook c memor).getD 0)))))) := by
    funext acc c
    by_cases h : c = 0
    · simp [h]
    · simp [h]
  rw [hfun, foldl_append_bind]
  simp

theorem alook_all_values {β : Type} (n : Ident) (v : β) :
    ∀ (L : List (Ident × β)), (n, v) ∈ L →
      (∀ v', (n, v') ∈ L → v' = v) → alook n L = some v := by
  intro L
  induction L with
  | nil => intro hm; simp at hm
  | cons kv rest ih =>
    intro hm huniq
    obtain ⟨k, u⟩ := kv
    by_cases hk : k = n
    · subst hk
      have hu : u = v := huniq u (List.mem_cons_self _ _)
      subst hu
      simp [alook]
    · have : (n, v) ∈ rest := by
        rcases List.mem_cons.mp hm with heq | htl
        · exact absurd (congrArg Prod.fst heq).symm hk
        · exact htl
      have halook : alook n ((k, u) :: rest) = alook n rest := by
        simp only [alook, if_neg hk]
      rw [halook]
      exact ih this (fun v' hv' => huniq v' (List.mem_cons_of_mem _ hv'))

/-- Under the collective-node invariant, looking up a terminal in the
position table built by the final loop yields exactly the
`0.5 * ((length - memo[c]) + memor[c])` value for its collective node. -/
theorem buildPos_lookup (st : CState) (hI : CInv st) (len : ℚ)
    (memo memor : Memo) (n : Ident) (c : Nat)
    (hc : alook n st.cnodeMap = some c) :
    alook n (buildPos st.cnode st.cnodes len memo memor) =
      some (qhalf (qadd (qsub len ((nlook c memo).getD 0))
        ((nlook c memor).getD 0))) := by
  apply alook_all_values
  · rw [buildPos_eq_bind]
    apply List.mem_flatMap.mpr
    obtain ⟨l, hl, hnl⟩ := hI.2.2.2 n c hc
    have hbounds := hI.1 n c hc
    refine ⟨c, ?_, ?_⟩
    · rw [List.mem_range]; omega
    · rw [if_neg (by omega : ¬ c = 0), hl]
      exact List.mem_map.mpr ⟨n, hnl, rfl⟩
  · intro v' hv'
    rw [buildPos_eq_bind] at hv'
    obtain ⟨c', _, hin⟩ := List.mem_flatMap.mp hv'
    by_cases hc0 : c' = 0
    · rw [if_pos hc0] at hin
      simp at hin
    · rw [if_neg hc0] at hin
      obtain ⟨n0, hn0, heq⟩ := List.mem_map.mp hin
      have hn0n : n0 = n := congrArg Prod.fst heq
      have hval : v' = qhalf (qadd (qsub len ((nlook c' memo).getD 0))
          ((nlook c' memor).getD 0)) := (congrArg Prod.snd heq).symm
      cases hcl : nlook c' st.cnodes with
      | none => rw [hcl] at hn0; simp at hn0
      | some l' =>
        rw [hcl] at hn0
        have hlk := hI.2.2.1 c' l' hcl n (hn0n ▸ hn0)
        have hcc : c' = c := Option.some.inj (hlk.symm.trans hc)
        rw [hval, hcc]

/-! ## Pass-level structure lemmas -/

theorem alook_map_keyed {β γ : Type} (g : Ident → β → γ) (n : Ident) :
    ∀ (l : List (Ident × β)),
      alook n (l.map (fun p => (p.1, g p.1 p.2))) = (alook n l).map (g n) := by
  intro l
  induction l with
  | nil => rfl
  | cons kv rest ih =>
    obtain ⟨k, u⟩ := kv
    by_cases hk : k = n
    · subst hk
      simp [alook]
    · simp only [List.map_cons, alook, if_neg hk]
      exact ih

/-- Destructuring an error-free `_make_graphs` run into its pipeline
stages. -/
theorem makeGraphsF_ok (fuel : Nat) (es : List Elt) (dirs : Ident × Ident)
    (pos : List (Ident × ℚ)) (h : makeGraphsF fuel es dirs = .ok pos) :
    ∃ st0, unifyFold dirs es = .ok st0 ∧
    ∃ (Lf : ℚ) (memo : Memo) (Lr : ℚ) (memor : Memo),
      longestPathRun (finishGraphs (augmentFold dirs st0 es).cnode
          (buildEdges dirs (augmentFold dirs st0 es).cnodeMap es).1
          (buildEdges dirs (augmentFold dirs st0 es).cnodeMap es).2).1
        (List.range ((augmentFold dirs st0 es).cnode + 1)) fuel
        = some (Lf, memo) ∧
      longestPathRun (finishGraphs (augmentFold dirs st0 es).cnode
          (buildEdges dirs (augmentFold dirs st0 es).cnodeMap es).1
          (buildEdges dirs (augmentFold dirs st0 es).cnodeMap es).2).2
        (List.range ((augmentFold dirs st0 es).cnode + 1)) fuel
        = some (Lr, memor) ∧
      pos = buildPos (augmentFold dirs st0 es).cnode
        (augmentFold dirs st0 es).cnodes Lr memo memor := by
  cases hu : unifyFold dirs es with
  | error nm =>
    simp only [makeGraphsF, hu] at h
    exact absurd h (by simp)
  | ok st0 =>
    simp only [makeGraphsF, hu] at h
    cases hF : longestPathRun (finishGraphs (augmentFold dirs st0 es).cnode
        (buildEdges dirs (augmentFold dirs st0 es).cnodeMap es).1
        (buildEdges dirs (augmentFold dirs st0 es).cnodeMap es).2).1
      (List.range ((augmentFold dirs st0 es).cnode + 1)) fuel with
    | none => rw [hF] at h; exact absurd h (by simp)
    | some pr =>
      obtain ⟨Lf, memo⟩ := pr
      rw [hF] at h
      cases hR : longestPathRun (finishGraphs (augmentFold dirs st0 es).cnode
          (buildEdges dirs (augmentFold dirs st0 es).cnodeMap es).1
          (buildEdges dirs (augmentFold dirs st0 es).cnodeMap es).2).2
        (List.range ((augmentFold dirs st0 es).cnode + 1)) fuel with
      | none => rw [hR] at h; exact absurd h (by simp)
      | some pr2 =>
        obtain ⟨Lr, memor⟩ := pr2
        rw [hR] at h
        exact ⟨st0, rfl, Lf, memo, Lr, memor, hF, hR, (Except.ok.inj h).symm⟩

/-- Per-node and per-edge facts of the two scheduler runs over mirrored
edge stores. -/
theorem paired_runs_facts (cnode : Nat) (ge rge : Graph)
    (hp : EdgePaired cnode ge rge) (fuel1 fuel2 : Nat) (Lf Lr : ℚ)
    (memo memor : Memo)
    (hF : longestPathRun (finishGraphs cnode ge rge).1
      (List.range (cnode + 1)) fuel1 = some (Lf, memo))
    (hR : longestPathRun (finishGraphs cnode ge rge).2
      (List.range (cnode + 1)) fuel2 = some (Lr, memor)) :
    (∀ c, c ≤ cnode →
      ∃ F R, nlook c memo = some F ∧ nlook c memor = some R ∧
        0 ≤ F ∧ F ≤ Lf ∧ 0 ≤ R ∧ R ≤ Lr) ∧
    (∀ c1 c2 w, 1 ≤ c1 → c1 ≤ cnode → 1 ≤ c2 → c2 ≤ cnode →
      (c2, w) ∈ ge c1 →
      ∀ F1 F2 R1 R2, nlook c1 memo = some F1 → nlook c2 memo = some F2 →
        nlook c1 memor = some R1 → nlook c2 memor = some R2 →
        F2 + w ≤ F1 ∧ R1 + w ≤ R2) := by
  obtain ⟨hSF, -, hcovF⟩ := run_facts _ _ fuel1 Lf memo hF
  obtain ⟨hSR, -, hcovR⟩ := run_facts _ _ fuel2 Lr memor hR
  constructor
  · intro c hc
    obtain ⟨F, hFm, hF0, hFL⟩ := hcovF c (List.mem_range.mpr (by omega))
    obtain ⟨R, hRm, hR0, hRL⟩ := hcovR c (List.mem_range.mpr (by omega))
    exact ⟨F, R, hFm, hRm, hF0, hFL, hR0, hRL⟩
  · intro c1 c2 w h11 h1c h21 h2c hmem F1 F2 R1 R2 hF1 hF2 hR1 hR2
    have h10 : c1 ≠ 0 := by omega
    have h20 : c2 ≠ 0 := by omega
    have hmemg : (c2, w) ∈ (finishGraphs cnode ge rge).1 c1 := by
      rw [(finishGraphs_pos cnode ge rge c1 h10).1]; exact hmem
    have hmirror : (c1, w) ∈ rge c2 := (hp.1 c1 c2 w hmem).2.2.2.2
    have hmemrg : (c1, w) ∈ (finishGraphs cnode ge rge).2 c2 := by
      rw [(finishGraphs_pos cnode ge rge c2 h20).2]; exact hmirror
    constructor
    · obtain ⟨-, hdom, -⟩ := hSF c1 F1 hF1
      obtain ⟨z, hz, hzw⟩ := hdom c2 w hmemg
      have : z = F2 := Option.some.inj (hz.symm.trans hF2)
      linarith [this ▸ hzw]
    · obtain ⟨-, hdom, -⟩ := hSR c2 R2 hR2
      obtain ⟨z, hz, hzw⟩ := hdom c1 w hmemrg
      have : z = R1 := Option.some.inj (hz.symm.trans hR1)
      linarith [this ▸ hzw]

/-- The forward critical length is bounded by the reverse one: the
reverse memo induces a super-solution of the forward graph. -/
theorem lr_dual_le (cnode : Nat) (ge rge : Graph)
    (hp : EdgePaired cnode ge rge) (fuel1 fuel2 : Nat) (Lf Lr : ℚ)
    (memo memor : Memo)
    (hF : longestPathRun (finishGraphs cnode ge rge).1
      (List.range (cnode + 1)) fuel1 = some (Lf, memo))
    (hR : longestPathRun (finishGraphs cnode ge rge).2
      (List.range (cnode + 1)) fuel2 = some (Lr, memor)) :
    Lf ≤ Lr := by
  obtain ⟨hSR, -, hcovR⟩ := run_facts _ _ fuel2 Lr memor hR
  have hkeys := run_keysLt _ (cnode + 1)
    (finishGraphs_bounds cnode ge rge hp).2 _ fuel2 Lr memor
    (fun v hv => List.mem_range.mp hv) hR
  have hLr0 : 0 ≤ Lr := by
    obtain ⟨x, -, hx0, hxL⟩ := hcovR 0 (List.mem_range.mpr (Nat.succ_pos _))
    linarith
  have hRv : ∀ v, v ≤ cnode →
      nlook v memor = some ((nlook v memor).getD 0) ∧
      0 ≤ (nlook v memor).getD 0 ∧ (nlook v memor).getD 0 ≤ Lr := by
    intro v hv
    obtain ⟨x, hx, hx0, hxL⟩ := hcovR v (List.mem_range.mpr (by omega))
    rw [hx]
    exact ⟨rfl, hx0, hxL⟩
  have hP0 : dualPot Lr memor 0 = Lr := by simp [dualPot]
  have hPv : ∀ v, v ≠ 0 → dualPot Lr memor v = Lr - (nlook v memor).getD 0 := by
    intro v hv
    simp [dualPot, hv]
  refine run_le _ (dualPot Lr memor) ?_ ?_ _ fuel1 Lf memo Lr ?_ hF
  · intro v p w hm
    by_cases hv0 : v = 0
    · subst hv0
      obtain ⟨hpr, hrgp, rfl⟩ :=
        ((finishGraphs_zero_mem cnode ge rge p w).1).mp hm
      obtain ⟨hp1, hplt⟩ := List.mem_range'.mp hpr
      have hp0 : p ≠ 0 := by omega
      have hRp0 : (nlook p memor).getD 0 = 0 := by
        obtain ⟨hsome, -, -⟩ := hRv p (by omega)
        obtain ⟨-, -, htight⟩ := hSR p _ hsome
        rcases htight with h0 | ⟨q, w', hqw, -⟩
        · exact h0
        · rw [(finishGraphs_pos cnode ge rge p hp0).2, hrgp] at hqw
          simp at hqw
      rw [hP0, hPv p hp0, hRp0]
      linarith
    · rw [(finishGraphs_pos cnode ge rge v hv0).1] at hm
      obtain ⟨hp1, hpc, hv1, hvc, hmirror⟩ := hp.1 v p w hm
      have hp0 : p ≠ 0 := by omega
      obtain ⟨hsomep, -, -⟩ := hRv p (by omega)
      obtain ⟨hsomev, -, -⟩ := hRv v (by omega)
      obtain ⟨-, hdom, -⟩ := hSR p _ hsomep
      obtain ⟨z, hz, hzw⟩ := hdom v w
        (by rw [(finishGraphs_pos cnode ge rge p hp0).2]; exact hmirror)
      have hzv : z = (nlook v memor).getD 0 :=
        Option.some.inj (hz.symm.trans hsomev)
      rw [hPv p hp0, hPv v hv0]
      linarith [hzv ▸ hzw]
  · intro v
    by_cases hv0 : v = 0
    · rw [hv0, hP0]
      exact hLr0
    · rw [hPv v hv0]
      by_cases hvc : v ≤ cnode
      · obtain ⟨-, -, hle⟩ := hRv v hvc
        linarith
      · have hnone : nlook v memor = none := by
          cases hnl : nlook v memor with
          | none => rfl
          | some y =>
            have := hkeys v y hnl
            omega
        rw [hnone]
        simp only [Option.getD_none]
        linarith
  · intro v hv
    have hvc : v ≤ cnode := by
      have := List.mem_range.mp hv
      omega
    by_cases hv0 : v = 0
    · rw [hv0, hP0]
    · rw [hPv v hv0]
      obtain ⟨-, h0, -⟩ := hRv v hvc
      linarith

/-- The two critical lengths of an axis pass agree (duality of the
mirrored longest-path problems). -/
theorem lr_dual_eq (cnode : Nat) (ge rge : Graph)
    (hp : EdgePaired cnode ge rge) (fuel1 fuel2 : Nat) (Lf Lr : ℚ)
    (memo memor : Memo)
    (hF : longestPathRun (finishGraphs cnode ge rge).1
      (List.range (cnode + 1)) fuel1 = some (Lf, memo))
    (hR : longestPathRun (finishGraphs cnode ge rge).2
      (List.range (cnode + 1)) fuel2 = some (Lr, memor)) :
    Lf = Lr := by
  refine le_antisymm
    (lr_dual_le cnode ge rge hp fuel1 fuel2 Lf Lr memo memor hF hR) ?_
  have h1 : (finishGraphs cnode rge ge).1 = (finishGraphs cnode ge rge).2 := rfl
  have h2 : (finishGraphs cnode rge ge).2 = (finishGraphs cnode ge rge).1 := rfl
  exact lr_dual_le cnode rge ge ⟨hp.2, hp.1⟩ fuel2 fuel1 Lr Lf memor memo
    (h1 ▸ hR) (h2 ▸ hF)

/-- Everything an error-free axis pass guarantees: the state invariant,
the two scheduler runs with the *same* critical length, the position
table, terminal coverage, per-node memo values, and the per-element edge
inequalities. -/
theorem pass_main (fuel : Nat) (es : List Elt) (dirs : Ident × Ident)
    (pos : List (Ident × ℚ)) (h : makeGraphsF fuel es dirs = .ok pos) :
    ∃ (st : CState) (L : ℚ) (memo memor : Memo),
      CInv st ∧
      longestPathRun (finishGraphs st.cnode
          (buildEdges dirs st.cnodeMap es).1
          (buildEdges dirs st.cnodeMap es).2).1
        (List.range (st.cnode + 1)) fuel = some (L, memo) ∧
      longestPathRun (finishGraphs st.cnode
          (buildEdges dirs st.cnodeMap es).1
          (buildEdges dirs st.cnodeMap es).2).2
        (List.range (st.cnode + 1)) fuel = some (L, memor) ∧
      pos = buildPos st.cnode st.cnodes L memo memor ∧
      (∀ e ∈ es, (∃ c, alook e.n1 st.cnodeMap = some c) ∧
        (∃ c, alook e.n2 st.cnodeMap = some c)) ∧
      (∀ c, c ≤ st.cnode → ∃ F R, nlook c memo = some F ∧
        nlook c memor = some R ∧ 0 ≤ F ∧ F ≤ L ∧ 0 ≤ R ∧ R ≤ L) ∧
      (∀ e ∈ es, ∀ c1 c2, alook e.n1 st.cnodeMap = some c1 →
        alook e.n2 st.cnodeMap = some c2 →
        ∀ F1 F2 R1 R2, nlook c1 memo = some F1 → nlook c2 memo = some F2 →
          nlook c1 memor = some R1 → nlook c2 memor = some R2 →
          (e.dir = dirs.1 → F2 + e.size ≤ F1 ∧ R1 + e.size ≤ R2) ∧
          (e.dir ≠ dirs.1 → e.dir = dirs.2 →
            F1 + e.size ≤ F2 ∧ R2 + e.size ≤ R1)) := by
  obtain ⟨st0, hu, Lf, memo, Lr, memor, hF, hR, hpos⟩ :=
    makeGraphsF_ok fuel es dirs pos h
  obtain ⟨hI, hcov⟩ := stage_inv dirs es st0 hu
  have hpair : EdgePaired (augmentFold dirs st0 es).cnode
      (buildEdges dirs (augmentFold dirs st0 es).cnodeMap es).1
      (buildEdges dirs (augmentFold dirs st0 es).cnodeMap es).2 :=
    buildEdges_paired dirs (augmentFold dirs st0 es).cnodeMap
      (augmentFold dirs st0 es).cnode hI.1 es ((fun _ => []), (fun _ => []))
      (fun e he _ => hcov e he) (emptyPair_paired _)
  have hdual : Lf = Lr := lr_dual_eq _ _ _ hpair fuel fuel Lf Lr memo memor hF hR
  rw [hdual] at hF
  obtain ⟨hnode, hedge⟩ :=
    paired_runs_facts _ _ _ hpair fuel fuel Lr Lr memo memor hF hR
  refine ⟨augmentFold dirs st0 es, Lr, memo, memor, hI, hF, hR, hpos, hcov,
    hnode, ?_⟩
  intro e he c1 c2 hc1 hc2 F1 F2 R1 R2 hF1 hF2 hR1 hR2
  have hb1 := hI.1 e.n1 c1 hc1
  have hb2 := hI.1 e.n2 c2 hc2
  constructor
  · intro hd1
    have hmem := ((buildEdges_mem dirs (augmentFold dirs st0 es).cnodeMap es
      ((fun _ => []), (fun _ => [])) e he).1 hd1).1
    rw [hc1, hc2] at hmem
    simp only [Option.getD_some] at hmem
    exact hedge c1 c2 e.size hb1.1 hb1.2 hb2.1 hb2.2 hmem
      F1 F2 R1 R2 hF1 hF2 hR1 hR2
  · intro hnd1 hd2
    have hmem := ((buildEdges_mem dirs (augmentFold dirs st0 es).cnodeMap es
      ((fun _ => []), (fun _ => [])) e he).2 hnd1 hd2).1
    rw [hc1, hc2] at hmem
    simp only [Option.getD_some] at hmem
    exact hedge c2 c1 e.size hb2.1 hb2.2 hb1.1 hb1.2 hmem
      F2 F1 R2 R1 hF2 hF1 hR2 hR1

theorem alook_map_coords (scale : ℚ) (ypos : List (Ident × ℚ)) (n : Ident) :
    ∀ (l : List (Ident × ℚ)),
      alook n (l.map (fun p => (p.1,
        (qmul p.2 scale, qmul ((alook p.1 ypos).getD 0) scale)))) =
      (alook n l).map (fun v =>
        (qmul v scale, qmul ((alook n ypos).getD 0) scale)) := by
  intro l
  induction l with
  | nil => rfl
  | cons kv rest ih =>
    obtain ⟨k, u⟩ := kv
    by_cases hk : k = n
    · subst hk
      simp [alook]
    · simp only [List.map_cons, alook, if_neg hk]
      exact ih

/-- C4: in an error-free axis pass the two scheduler runs return the same
critical length `L` (so `L` is the forward critical length), and every
terminal of every collective node `c` receives the arithmetic mean of its
ASAP-from-start value `L - F` and its ASAP-from-end value `R`; at zero
slack (`L - F = R`) the coordinate equals both values exactly. -/
theorem position_mean_of_asap (fuel : Nat) (es : List Elt)
    (dirs : Ident × Ident) (pos : List (Ident × ℚ))
    (h : makeGraphsF fuel es dirs = .ok pos) :
    ∃ (st : CState) (L : ℚ) (memo memor : Memo),
      longestPathRun (finishGraphs st.cnode
          (buildEdges dirs st.cnodeMap es).1
          (buildEdges dirs st.cnodeMap es).2).1
        (List.range (st.cnode + 1)) fuel = some (L, memo) ∧
      longestPathRun (finishGraphs st.cnode
          (buildEdges dirs st.cnodeMap es).1
          (buildEdges dirs st.cnodeMap es).2).2
        (List.range (st.cnode + 1)) fuel = some (L, memor) ∧
      ∀ n c, alook n st.cnodeMap = some c →
        ∃ F R, nlook c memo = some F ∧ nlook c memor = some R ∧
          alook n pos = some ((L - F + R) / 2) ∧
          (L - F = R →
            alook n pos = some (L - F) ∧ alook n pos = some R) := by
  obtain ⟨st, L, memo, memor, hI, hF, hR, hpos, -, hnode, -⟩ :=
    pass_main fuel es dirs pos h
  refine ⟨st, L, memo, memor, hF, hR, ?_⟩
  intro n c hc
  obtain ⟨F, R, hFm, hRm, -, -, -, -⟩ := hnode c (hI.1 n c hc).2
  have hl := buildPos_lookup st hI L memo memor n c hc
  rw [hFm, hRm] at hl
  simp only [Option.getD_some] at hl
  have hval : qhalf (qadd (qsub L F) R) = (L - F + R) / 2 := by
    rw [qsub_eq, qadd_eq, qhalf_eq]
  refine ⟨F, R, hFm, hRm, by rw [hpos, hl, hval], ?_⟩
  intro hslack
  have h1 : (L - F + R) / 2 = L - F := by rw [hslack]; ring
  have h2 : (L - F + R) / 2 = R := by rw [hslack]; ring
  exact ⟨by rw [hpos, hl, hval, h1], by rw [hpos, hl, hval, h2]⟩

theorem position_mean_of_asap_witness :
    ∃ (st : CState) (L : ℚ) (memo memor : Memo),
      longestPathRun (finishGraphs st.cnode
          (buildEdges (rightI, leftI) st.cnodeMap elems3).1
          (buildEdges (rightI, leftI) st.cnodeMap elems3).2).1
        (List.range (st.cnode + 1)) (defaultFuel elems3) = some (L, memo) ∧
      longestPathRun (finishGraphs st.cnode
          (buildEdges (rightI, leftI) st.cnodeMap elems3).1
          (buildEdges (rightI, leftI) st.cnodeMap elems3).2).2
        (List.range (st.cnode + 1)) (defaultFuel elems3) = some (L, memor) ∧
      ∀ n c, alook n st.cnodeMap = some c →
        ∃ F R, nlook c memo = some F ∧ nlook c memor = some R ∧
          alook n [(t0I, (0 : ℚ)), (t1I, 1), (t2I, 2), (t3I, 3)]
            = some ((L - F + R) / 2) ∧
          (L - F = R →
            alook n [(t0I, (0 : ℚ)), (t1I, 1), (t2I, 2), (t3I, 3)]
              = some (L - F) ∧
            alook n [(t0I, (0 : ℚ)), (t1I, 1), (t2I, 2), (t3I, 3)]
              = some R) :=
  position_mean_of_asap (defaultFuel elems3) elems3 (rightI, leftI)
    [(t0I, (0 : ℚ)), (t1I, 1), (t2I, 2), (t3I, 3)] (by decide)

/-- C1: for every element of an error-free layout (positive scale,
positive minimum size), the coordinate difference of its two terminals
along its declared axis is at least `size * scale`, and the sign of
`terminal2 - terminal1` is positive for the forward direction of the axis
(`right`, `up`) and negative for the reverse one (`left`, `down`). -/
theorem element_span (scale : ℚ) (es : List Elt)
    (coords : List (Ident × (ℚ × ℚ)))
    (hs : 0 < scale) (h : positionsCalculate scale es = .ok coords)
    (e : Elt) (he : e ∈ es) (hsz : 0 < e.size) :
    ∃ p1 p2, alook e.n1 coords = some p1 ∧ alook e.n2 coords = some p2 ∧
      (e.dir = rightI → e.size * scale ≤ p2.1 - p1.1 ∧ 0 < p2.1 - p1.1) ∧
      (e.dir = leftI → e.size * scale ≤ p1.1 - p2.1 ∧ p2.1 - p1.1 < 0) ∧
      (e.dir = upI → e.size * scale ≤ p2.2 - p1.2 ∧ 0 < p2.2 - p1.2) ∧
      (e.dir = downI → e.size * scale ≤ p1.2 - p2.2 ∧ p2.2 - p1.2 < 0) := by
  simp only [positionsCalculate] at h
  cases hx : makeGraphsF (defaultFuel es) es (rightI, leftI) with
  | error err => rw [hx] at h; exact absurd h (by simp)
  | ok xpos =>
    rw [hx] at h
    cases hy : makeGraphsF (defaultFuel es) es (upI, downI) with
    | error err => rw [hy] at h; exact absurd h (by simp)
    | ok ypos =>
      rw [hy] at h
      have hcoords : coords = xpos.map (fun p => (p.1,
          (qmul p.2 scale, qmul ((alook p.1 ypos).getD 0) scale))) := by
        injection h with h'
        exact h'.symm
      obtain ⟨stx, Lx, mx, mrx, hIx, -, -, hposx, hcovx, hnodex, hedgex⟩ :=
        pass_main (defaultFuel es) es (rightI, leftI) xpos hx
      obtain ⟨sty, Ly, my, mry, hIy, -, -, hposy, hcovy, hnodey, hedgey⟩ :=
        pass_main (defaultFuel es) es (upI, downI) ypos hy
      have mk_x : ∀ (n : Ident) (c : Nat), alook n stx.cnodeMap = some c →
          ∀ F R, nlook c mx = some F → nlook c mrx = some R →
          alook n xpos = some ((Lx - F + R) / 2) := by
        intro n c hc F R hFm hRm
        have hl := buildPos_lookup stx hIx Lx mx mrx n c hc
        rw [hFm, hRm] at hl
        simp only [Option.getD_some] at hl
        rw [hposx, hl, qsub_eq, qadd_eq, qhalf_eq]
      have mk_y : ∀ (n : Ident) (c : Nat), alook n sty.cnodeMap = some c →
          ∀ F R, nlook c my = some F → nlook c mry = some R →
          alook n ypos = some ((Ly - F + R) / 2) := by
        intro n c hc F R hFm hRm
        have hl := buildPos_lookup sty hIy Ly my mry n c hc
        rw [hFm, hRm] at hl
        simp only [Option.getD_some] at hl
        rw [hposy, hl, qsub_eq, qadd_eq, qhalf_eq]
      obtain ⟨⟨c1, hc1⟩, ⟨c2, hc2⟩⟩ := hcovx e he
      obtain ⟨F1, R1, hF1, hR1, -, -, -, -⟩ := hnodex c1 (hIx.1 e.n1 c1 hc1).2
      obtain ⟨F2, R2, hF2, hR2, -, -, -, -⟩ := hnodex c2 (hIx.1 e.n2 c2 hc2).2
      have hx1 := mk_x e.n1 c1 hc1 F1 R1 hF1 hR1
      have hx2 := mk_x e.n2 c2 hc2 F2 R2 hF2 hR2
      obtain ⟨⟨d1, hd1⟩, ⟨d2, hd2⟩⟩ := hcovy e he
      obtain ⟨G1, S1, hG1, hS1, -, -, -, -⟩ := hnodey d1 (hIy.1 e.n1 d1 hd1).2
      obtain ⟨G2, S2, hG2, hS2, -, -, -, -⟩ := hnodey d2 (hIy.1 e.n2 d2 hd2).2
      have hy1 := mk_y e.n1 d1 hd1 G1 S1 hG1 hS1
      have hy2 := mk_y e.n2 d2 hd2 G2 S2 hG2 hS2
      have hcoord1 : alook e.n1 coords =
          some ((Lx - F1 + R1) / 2 * scale, (Ly - G1 + S1) / 2 * scale) := by
        rw [hcoords, alook_map_coords scale ypos e.n1 xpos, hx1, hy1]
        simp only [Option.map_some', Option.getD_some, qmul_eq]
      have hcoord2 : alook e.n2 coords =
          some ((Lx - F2 + R2) / 2 * scale, (Ly - G2 + S2) / 2 * scale) := by
        rw [hcoords, alook_map_coords scale ypos e.n2 xpos, hx2, hy2]
        simp only [Option.map_some', Option.getD_some, qmul_eq]
      refine ⟨((Lx - F1 + R1) / 2 * scale, (Ly - G1 + S1) / 2 * scale),
        ((Lx - F2 + R2) / 2 * scale, (Ly - G2 + S2) / 2 * scale),
        hcoord1, hcoord2, ?_, ?_, ?_, ?_⟩
      · intro hd
        obtain ⟨hFe, hRe⟩ :=
          (hedgex e he c1 c2 hc1 hc2 F1 F2 R1 R2 hF1 hF2 hR1 hR2).1 hd
        have hspan : e.size ≤ (Lx - F2 + R2) / 2 - (Lx - F1 + R1) / 2 := by
          linarith
        have h1 := mul_le_mul_of_nonneg_right hspan (le_of_lt hs)
        have h2 := mul_pos (lt_of_lt_of_le hsz hspan) hs
        have h3 : ((Lx - F2 + R2) / 2 - (Lx - F1 + R1) / 2) * scale
            = (Lx - F2 + R2) / 2 * scale - (Lx - F1 + R1) / 2 * scale := by
          ring
        rw [h3] at h1 h2
        exact ⟨h1, h2⟩
      · intro hd
        have hne : e.dir ≠ rightI := by rw [hd]; decide
        obtain ⟨hFe, hRe⟩ :=
          (hedgex e he c1 c2 hc1 hc2 F1 F2 R1 R2 hF1 hF2 hR1 hR2).2 hne hd
        have hspan : e.size ≤ (Lx - F1 + R1) / 2 - (Lx - F2 + R2) / 2 := by
          linarith
        have h1 := mul_le_mul_of_nonneg_right hspan (le_of_lt hs)
        have h2 := mul_pos (lt_of_lt_of_le hsz hspan) hs
        have h3 : ((Lx - F1 + R1) / 2 - (Lx - F2 + R2) / 2) * scale
            = (Lx - F1 + R1) / 2 * scale - (Lx - F2 + R2) / 2 * scale := by
          ring
        rw [h3] at h1 h2
        exact ⟨h1, by linarith⟩
      · intro hd
        obtain ⟨hFe, hRe⟩ :=
          (hedgey e he d1 d2 hd1 hd2 G1 G2 S1 S2 hG1 hG2 hS1 hS2).1 hd
        have hspan : e.size ≤ (Ly - G2 + S2) / 2 - (Ly - G1 + S1) / 2 := by
          linarith
        have h1 := mul_le_mul_of_nonneg_right hspan (le_of_lt hs)
        have h2 := mul_pos (lt_of_lt_of_le hsz hspan) hs
        have h3 : ((Ly - G2 + S2) / 2 - (Ly - G1 + S1) / 2) * scale
            = (Ly - G2 + S2) / 2 * scale - (Ly - G1 + S1) / 2 * scale := by
          ring
        rw [h3] at h1 h2
        exact ⟨h1, h2⟩
      · intro hd
        have hne : e.dir ≠ upI := by rw [hd]; decide
        obtain ⟨hFe, hRe⟩ :=
          (hedgey e he d1 d2 hd1 hd2 G1 G2 S1 S2 hG1 hG2 hS1 hS2).2 hne hd
        have hspan : e.size ≤ (Ly - G1 + S1) / 2 - (Ly - G2 + S2) / 2 := by
          linarith
        have h1 := mul_le_mul_of_nonneg_right hspan (le_of_lt hs)
        have h2 := mul_pos (lt_of_lt_of_le hsz hspan) hs
        have h3 : ((Ly - G1 + S1) / 2 - (Ly - G2 + S2) / 2) * scale
            = (Ly - G1 + S1) / 2 * scale - (Ly - G2 + S2) / 2 * scale := by
          ring
        rw [h3] at h1 h2
        exact ⟨h1, by linarith⟩

theorem element_span_witness :
    ∃ p1 p2,
      alook t0I [(t0I, ((0 : ℚ), (0 : ℚ))), (t1I, (2, 0)), (t2I, (4, 0)),
        (t3I, (6, 0))] = some p1 ∧
      alook t1I [(t0I, ((0 : ℚ), (0 : ℚ))), (t1I, (2, 0)), (t2I, (4, 0)),
        (t3I, (6, 0))] = some p2 ∧
      (rightI = rightI → (1 : ℚ) * 2 ≤ p2.1 - p1.1 ∧ 0 < p2.1 - p1.1) ∧
      (rightI = leftI → (1 : ℚ) * 2 ≤ p1.1 - p2.1 ∧ p2.1 - p1.1 < 0) ∧
      (rightI = upI → (1 : ℚ) * 2 ≤ p2.2 - p1.2 ∧ 0 < p2.2 - p1.2) ∧
      (rightI = downI → (1 : ℚ) * 2 ≤ p1.2 - p2.2 ∧ p2.2 - p1.2 < 0) :=
  element_span 2 elems3
    [(t0I, ((0 : ℚ), (0 : ℚ))), (t1I, (2, 0)), (t2I, (4, 0)), (t3I, (6, 0))]
    (by norm_num) (by decide) ⟨"R1".toList, t0I, t1I, rightI, 1⟩
    (by decide) (by norm_num)

/-! ## Claim C6: wires per net under the dict's key enumeration -/

theorem makeWires1Keys_length (ks : List Ident) :
    (makeWires1Keys ks).length = ks.length - 1 := by
  unfold makeWires1Keys
  by_cases h : ks.length - 1 = 0 <;> simp [h]

theorem makeWires1Keys_singleton (ks : List Ident) (h : ks.length = 1) :
    makeWires1Keys ks = [] := by
  unfold makeWires1Keys
  simp [h]

theorem makeWires1Keys_consecutive (ks : List Ident) (i : Nat)
    (h : i + 1 < ks.length) :
    (makeWires1Keys ks).get? i =
      some ((ks.get? i).getD [], (ks.get? (i + 1)).getD []) := by
  unfold makeWires1Keys
  have hlen : ks.length - 1 ≠ 0 := by omega
  have hi : i < ks.length - 1 := by omega
  simp only [hlen, if_false, List.get?_eq_getElem?, List.getElem?_map,
    List.getElem?_range hi]
  rfl

theorem makeWiresKeys_mem_split (orders : List (List Ident))
    (ks : List Ident) (hks : ks ∈ orders) :
    ∃ w1 w2, makeWiresKeys orders = w1 ++ makeWires1Keys ks ++ w2 := by
  obtain ⟨l1, l2, rfl⟩ := List.append_of_mem hks
  refine ⟨l1.flatMap makeWires1Keys, l2.flatMap makeWires1Keys, ?_⟩
  unfold makeWiresKeys
  rw [foldl_append_bind]
  simp [List.flatMap_append, List.flatMap_cons]

/-- C6 counterexample: the Python 2 inner dict fixes no key order, so
`vnode.keys()` may enumerate the net `0` of the two-wire schematic as
`0_1, 0, 0_2` — a permutation of the stored aliases — and then
`_make_wires1` does *not* join consecutive aliases in first-encountered
order: the synthesized wire pairs differ from the first-encountered
pairing. -/
theorem wires_key_order_counterexample :
    alook ("0".toList) schemWires.vnodes =
      some [("0".toList, "W#1".toList), ("0_1".toList, "W#1".toList),
            ("0_2".toList, "W#2".toList)] ∧
    List.Perm ["0_1".toList, "0".toList, "0_2".toList]
      ["0".toList, "0_1".toList, "0_2".toList] ∧
    makeWires1Keys ["0_1".toList, "0".toList, "0_2".toList] ≠
      makeWires1Keys ["0".toList, "0_1".toList, "0_2".toList] := by
  refine ⟨by decide, by decide, by decide⟩

/-- C6 (corrected): every net of the schematic's bookkeeping contributes
exactly `k - 1` wires to the inferred wire list, joining consecutive
aliases in the order the Python 2 inner dict enumerates its keys — some
permutation of the net's `k` stored aliases, not necessarily
first-encountered order; a singleton net contributes no wire. -/
theorem wires_per_net_keyorder (st : SchemState) (root : Ident)
    (aliases : List (Ident × Ident))
    (h : alook root st.vnodes = some aliases)
    (ks : List Ident) (hperm : List.Perm ks (aliases.map Prod.fst))
    (orders : List (List Ident)) (hks : ks ∈ orders) :
    (∃ w1 w2, makeWiresKeys orders = w1 ++ makeWires1Keys ks ++ w2) ∧
    (makeWires1Keys ks).length = aliases.length - 1 ∧
    (aliases.length = 1 → makeWires1Keys ks = []) ∧
    (∀ i, i + 1 < aliases.length →
      (makeWires1Keys ks).get? i =
        some ((ks.get? i).getD [], (ks.get? (i + 1)).getD [])) := by
  have hlen : ks.length = aliases.length := by
    rw [hperm.length_eq, List.length_map]
  refine ⟨makeWiresKeys_mem_split orders ks hks, ?_, ?_, ?_⟩
  · rw [makeWires1Keys_length, hlen]
  · intro h1
    exact makeWires1Keys_singleton ks (by omega)
  · intro i hi
    exact makeWires1Keys_consecutive ks i (by omega)

theorem wires_per_net_keyorder_witness :
    (∃ w1 w2, makeWiresKeys [["0_1".toList, "0".toList, "0_2".toList]] =
        w1 ++ makeWires1Keys ["0_1".toList, "0".toList, "0_2".toList] ++ w2) ∧
    (makeWires1Keys ["0_1".toList, "0".toList, "0_2".toList]).length =
      [("0".toList, "W#1".toList), ("0_1".toList, "W#1".toList),
       ("0_2".toList, "W#2".toList)].length - 1 ∧
    ([("0".toList, "W#1".toList), ("0_1".toList, "W#1".toList),
      ("0_2".toList, "W#2".toList)].length = 1 →
      makeWires1Keys ["0_1".toList, "0".toList, "0_2".toList] = []) ∧
    (∀ i, i + 1 < [("0".toList, "W#1".toList), ("0_1".toList, "W#1".toList),
        ("0_2".toList, "W#2".toList)].length →
      (makeWires1Keys ["0_1".toList, "0".toList, "0_2".toList]).get? i =
        some ((["0_1".toList, "0".toList, "0_2".toList].get? i).getD [],
          (["0_1".toList, "0".toList, "0_2".toList].get? (i + 1)).getD [])) :=
  wires_per_net_keyorder schemWires ("0".toList)
    [("0".toList, "W#1".toList), ("0_1".toList, "W#1".toList),
     ("0_2".toList, "W#2".toList)] (by decide)
    ["0_1".toList, "0".toList, "0_2".toList] (by decide)
    [["0_1".toList, "0".toList, "0_2".toList]] (by decide)
